import Mathlib

/-!
Shallow embedding of the share-distribution core of the `stocks-new`
repository (`_shares.py`, `distribute.py`, `search_helper.py`, `ladder.py`).

Python `Decimal` prices and profits are modelled as exact rationals (`Rat`);
share quantities are modelled as `Int` (Python `int`).  A `Shares` object is
modelled by its `pairs` field: a list of `(price, quantity)` pairs.  Python
exceptions are modelled with `Option`/`Except`, and `while` loops are modelled
with an explicit fuel parameter: a `none` result means the Python code raised
or failed to terminate, and every theorem about a loop's result is conditional
on the code having returned.
-/

namespace Stocks

/-- A share lot: purchase price and quantity (`[price, qty]` in the source). -/
abbrev Pair := Rat × Int

/-- The `pairs` field of a `Shares` object. -/
abbrev Pairs := List Pair

/-- Total quantity held at a given exact price (multiset view of a ledger). -/
def qtyAt (ps : Pairs) (price : Rat) : Int :=
  (ps.map (fun p => if p.1 = price then p.2 else 0)).sum

/-- `Shares.__len__`: the total number of shares (sum of quantities). -/
def totalQty (ps : Pairs) : Int :=
  (ps.map Prod.snd).sum

@[simp] theorem qtyAt_nil (price : Rat) : qtyAt [] price = 0 := rfl

theorem qtyAt_cons (p : Pair) (ps : Pairs) (price : Rat) :
    qtyAt (p :: ps) price = (if p.1 = price then p.2 else 0) + qtyAt ps price := by
  simp [qtyAt]

@[simp] theorem totalQty_nil : totalQty [] = 0 := rfl

theorem totalQty_cons (p : Pair) (ps : Pairs) :
    totalQty (p :: ps) = p.2 + totalQty ps := by
  simp [totalQty]

theorem qtyAt_perm {ps ps2 : Pairs} (h : ps.Perm ps2) (price : Rat) :
    qtyAt ps price = qtyAt ps2 price :=
  (h.map _).sum_eq

theorem totalQty_perm {ps ps2 : Pairs} (h : ps.Perm ps2) :
    totalQty ps = totalQty ps2 :=
  (h.map _).sum_eq

/-- Round-half-even on rationals: the rounding used by Python's `round` on
`Decimal` values (banker's rounding). -/
def roundHalfEven (x : Rat) : Int :=
  let f : Int := ⌊x⌋
  let r : Rat := x - f
  if r < 1/2 then f
  else if 1/2 < r then f + 1
  else if f % 2 = 0 then f else f + 1

/-- `util.penny_round` (default `fn=round`): `round(x * 100) / 100`. -/
def pennyRound (x : Rat) : Rat :=
  ((roundHalfEven (x * 100) : Int) : Rat) / 100

/-- A price is penny-quantized (an integer number of cents).  Every price
stored in a `Shares` object is quantized, because `convert_to_pairs` applies
`util.penny_round` to every incoming price. -/
def Quantized (x : Rat) : Prop := (x * 100).den = 1

instance (x : Rat) : Decidable (Quantized x) := by
  unfold Quantized; infer_instance

/-- All prices in a ledger are penny-quantized. -/
def QuantizedAll (ps : Pairs) : Prop := ∀ p ∈ ps, Quantized p.1

instance (ps : Pairs) : Decidable (QuantizedAll ps) := by
  unfold QuantizedAll; infer_instance

theorem quantized_eq_int_div (x : Rat) (h : Quantized x) :
    x = ((x * 100).num : Rat) / 100 := by
  have hx : ((x * 100).num : Rat) = x * 100 := by
    have := Rat.den_eq_one_iff (x * 100)
    exact (this.mp h)
  rw [hx]
  field_simp

theorem roundHalfEven_intCast (k : Int) : roundHalfEven (k : Rat) = k := by
  unfold roundHalfEven
  have hf : ⌊(k : Rat)⌋ = k := Int.floor_intCast k
  simp only [hf, sub_self]
  norm_num

theorem pennyRound_quantized (x : Rat) (h : Quantized x) : pennyRound x = x := by
  unfold pennyRound
  have hx : ((x * 100).num : Rat) = x * 100 := (Rat.den_eq_one_iff (x * 100)).mp h
  rw [show x * 100 = ((x * 100).num : Rat) from hx.symm, roundHalfEven_intCast, hx]
  field_simp

theorem quantized_pennyRound (x : Rat) : Quantized (pennyRound x) := by
  unfold Quantized pennyRound
  have h100 : ((100 : Rat)) ≠ 0 := by norm_num
  rw [div_mul_cancel₀ _ h100]
  exact Rat.den_intCast _

/-- Two quantized prices closer than half a cent are equal (justifies that the
half-cent tolerance in `get_pair` is an exact match on well-formed ledgers). -/
theorem quantized_close_eq {x y : Rat} (hx : Quantized x) (hy : Quantized y)
    (h : |x - y| < 1/200) : x = y := by
  have hxv := quantized_eq_int_div x hx
  have hyv := quantized_eq_int_div y hy
  set a : Int := (x * 100).num with ha
  set b : Int := (y * 100).num with hb
  have hd : |((a - b : Int) : Rat)| < 1/2 := by
    have : x - y = ((a - b : Int) : Rat) / 100 := by
      rw [hxv, hyv]; push_cast; ring
    rw [this] at h
    rw [abs_div] at h
    have : |((100 : Rat))| = 100 := by norm_num
    rw [this] at h
    linarith [(div_lt_iff₀ (by norm_num : (0:Rat) < 100)).mp h]
  have hab : a = b := by
    by_contra hne
    have h1 : 1 ≤ |a - b| := Int.one_le_abs (sub_ne_zero.mpr hne)
    have h2 : (1 : Rat) ≤ |((a - b : Int) : Rat)| := by
      rw [← Int.cast_abs]
      exact_mod_cast h1
    linarith
  rw [hxv, hyv, hab]

/-! ### Stable sorting (Python `list.sort(key=...)` is a stable sort) -/

/-- Insert `x` after every element `y` of an already-sorted list with
`le y x`; used to model Python's stable sort. -/
def insertLe {α : Type} (le : α → α → Bool) (x : α) : List α → List α
  | [] => [x]
  | y :: ys => if le y x then y :: insertLe le x ys else x :: y :: ys

/-- Stable sort: fold the list left to right, inserting each element after
all previously-placed elements that compare `le` to it. -/
def stableSort {α : Type} (le : α → α → Bool) (l : List α) : List α :=
  l.foldl (fun acc x => insertLe le x acc) []

theorem insertLe_perm {α : Type} (le : α → α → Bool) (x : α) (l : List α) :
    (insertLe le x l).Perm (x :: l) := by
  induction l with
  | nil => simp [insertLe]
  | cons y ys ih =>
    unfold insertLe
    by_cases h : le y x = true
    · simp only [h, if_true]
      exact (ih.cons y).trans (List.Perm.swap x y ys)
    · simp only [h]
      simp

theorem stableSort_perm {α : Type} (le : α → α → Bool) (l : List α) :
    (stableSort le l).Perm l := by
  suffices h : ∀ (l acc : List α),
      (l.foldl (fun acc x => insertLe le x acc) acc).Perm (l ++ acc) by
    have := h l []
    simpa using this
  intro l
  induction l with
  | nil => intro acc; simp
  | cons x xs ih =>
    intro acc
    simp only [List.foldl_cons]
    refine (ih (insertLe le x acc)).trans ?_
    have h1 : (xs ++ insertLe le x acc).Perm (xs ++ (x :: acc)) :=
      (insertLe_perm le x acc).append_left xs
    have h2 : (xs ++ (x :: acc)).Perm (x :: (xs ++ acc)) := List.perm_middle
    exact h1.trans h2

theorem insertLe_pairwise {α : Type} (le : α → α → Bool)
    (htot : ∀ a b, le a b = false → le b a = true)
    (htrans : ∀ a b c, le a b = true → le b c = true → le a c = true)
    (x : α) (l : List α) (h : l.Pairwise (fun a b => le a b = true)) :
    (insertLe le x l).Pairwise (fun a b => le a b = true) := by
  induction l with
  | nil => simp [insertLe]
  | cons y ys ih =>
    rcases List.pairwise_cons.mp h with ⟨hy, hys⟩
    unfold insertLe
    by_cases hle : le y x = true
    · simp only [hle, if_true]
      refine List.pairwise_cons.mpr ⟨?_, ih hys⟩
      intro b hb
      have hperm := insertLe_perm le x ys
      have hb2 : b ∈ x :: ys := hperm.mem_iff.mp hb
      rcases List.mem_cons.mp hb2 with hbx | hbys
      · rw [hbx]; exact hle
      · exact hy b hbys
    · have hxy : le x y = true := htot y x (by simpa using hle)
      simp only [hle]
      simp only [Bool.false_eq_true, if_false]
      refine List.pairwise_cons.mpr ⟨?_, h⟩
      intro b hb
      rcases List.mem_cons.mp hb with hby | hbys
      · rw [hby]; exact hxy
      · exact htrans x y b hxy (hy b hbys)

theorem stableSort_pairwise {α : Type} (le : α → α → Bool)
    (htot : ∀ a b, le a b = false → le b a = true)
    (htrans : ∀ a b c, le a b = true → le b c = true → le a c = true)
    (l : List α) :
    (stableSort le l).Pairwise (fun a b => le a b = true) := by
  suffices h : ∀ (l acc : List α),
      acc.Pairwise (fun a b => le a b = true) →
      (l.foldl (fun acc x => insertLe le x acc) acc).Pairwise
        (fun a b => le a b = true) by
    exact h l [] (by simp)
  intro l
  induction l with
  | nil => intro acc hacc; simpa using hacc
  | cons x xs ih =>
    intro acc hacc
    simp only [List.foldl_cons]
    exact ih _ (insertLe_pairwise le htot htrans x acc hacc)

/-! ### Core pair-list operations from `_shares.py` -/

/-- Comparison used by `sort_pairs` (sort by price, `key=lambda p: p[0]`). -/
def pairLe (a b : Pair) : Bool := a.1 ≤ b.1

/-- `sort_pairs`: stable sort of share pairs by price. -/
def sort_pairs (ps : Pairs) : Pairs := stableSort pairLe ps

/-- One step of `merge_pairs`: fold `np` into the existing pair list, adding
its quantity to the first pair with exactly equal price, else appending it at
the end (the Python `for existing_pair in existing_pairs` search). -/
def bumpOrAppend : Pairs → Pair → Pairs
  | [], np => [np]
  | ep :: eps, np =>
    if np.1 = ep.1 then (ep.1, ep.2 + np.2) :: eps
    else ep :: bumpOrAppend eps np

/-- `merge_pairs` before its final `sort_pairs` call: merge each new pair into
the growing list in order (later new pairs see earlier appended ones). -/
def mergeNoSort (existing newPairs : Pairs) : Pairs :=
  newPairs.foldl bumpOrAppend existing

/-- `Shares.__add__` on raw pairs (operand already converted):
`merge_pairs(result.pairs, other_pairs)` which ends with `sort_pairs`. -/
def addPairs (s o : Pairs) : Pairs := sort_pairs (mergeNoSort s o)

/-- Errors raised by `Shares.__sub__` / `prune_zeros`. -/
inductive SubErr where
  | missingPrice (price : Rat)
  | insufficient (available requested : Int)
  | negativeQty (qty : Int) (price : Rat)
deriving Repr, DecidableEq

/-- Subtract `q` shares at `price` from the first pair matching `price` within
the half-cent tolerance of `get_pair` (`abs(pair[0] - price) < 0.005`),
mirroring the in-place `existing_pair[1] -= pair[1]` of `Shares.__sub__`. -/
def subQty : Pairs → Rat → Int → Except SubErr Pairs
  | [], price, _ => .error (.missingPrice price)
  | p :: ps, price, q =>
    if |p.1 - price| < 1/200 then
      if p.2 < q then .error (.insufficient p.2 q)
      else .ok ((p.1, p.2 - q) :: ps)
    else
      match subQty ps price q with
      | .error e => .error e
      | .ok ps2 => .ok (p :: ps2)

/-- The subtraction loop of `Shares.__sub__`: subtract each subtrahend pair in
order from the running result. -/
def subAll : Pairs → Pairs → Except SubErr Pairs
  | res, [] => .ok res
  | res, o :: os =>
    match subQty res o.1 o.2 with
    | .error e => .error e
    | .ok res2 => subAll res2 os

/-- `prune_zeros`: drop zero-quantity pairs, raising on a negative quantity. -/
def prune_zeros : Pairs → Except SubErr Pairs
  | [] => .ok []
  | p :: ps =>
    if p.2 < 0 then .error (.negativeQty p.2 p.1)
    else if 0 < p.2 then
      match prune_zeros ps with
      | .error e => .error e
      | .ok ps2 => .ok (p :: ps2)
    else prune_zeros ps

/-- `Shares.__sub__` on raw pairs (operand already converted): subtract every
subtrahend pair, then prune zero-quantity pairs. -/
def subPairs (s o : Pairs) : Except SubErr Pairs :=
  match subAll s o with
  | .error e => .error e
  | .ok r => prune_zeros r

/-- `convert_to_pairs` on a single `[price, qty]` pair (the non-nested list
case): dropped when the quantity is not positive, else penny-rounded. -/
def convertSingle (price : Rat) (q : Int) : Pairs :=
  if 0 < q then [(pennyRound price, q)] else []

/-- `convert_to_pairs` on a list of pairs (`fixup_list`): keep the pairs with
positive quantity and penny-round their prices. -/
def convertList (l : List (Rat × Int)) : Pairs :=
  (l.filter (fun p => 0 < p.2)).map (fun p => (pennyRound p.1, p.2))

/-- The extraction loop of `first_shares`: take the `remaining` cheapest
shares walking the pair list in order, splitting the last lot if needed;
`none` models the "Not enough shares to extract" exception. -/
def firstSharesAux : Int → Pairs → Option Pairs
  | remaining, [] => if remaining = 0 then some [] else none
  | remaining, p :: ps =>
    if remaining = 0 then some []
    else if remaining < p.2 then some [(p.1, remaining)]
    else
      match firstSharesAux (remaining - p.2) ps with
      | none => none
      | some ps2 => some (p :: ps2)

/-- `first_shares`: extract the `n` first shares and re-sort the result. -/
def first_shares (ps : Pairs) (n : Int) : Option Pairs :=
  (firstSharesAux n ps).map sort_pairs

/-- `Shares.bottom(n)`: `Shares(first_shares(self.pairs, n))`, whose
constructor converts the extracted raw pairs via `convert_to_pairs`. -/
def bottomPairs (ps : Pairs) (n : Int) : Option Pairs :=
  (first_shares ps n).map convertList

/-- `Shares.clone`: a deep copy; on immutable pair lists this is the
identity. -/
def clone_pairs (ps : Pairs) : Pairs := ps

/-- `Shares.compute_profit` from `_shares.py`:
per lot, `adjusted_buy = min(price, sell/min_margin)`;
`per_share = sell - max(adjusted_buy, min_buy)`; summed weighted by qty. -/
def compute_profit (ps : Pairs) (sell_price min_buy_price min_margin : Rat) : Rat :=
  match ps with
  | [] => 0
  | p :: rest =>
      (sell_price - max (min p.1 (sell_price / min_margin)) min_buy_price) * p.2
        + compute_profit rest sell_price min_buy_price min_margin

/-- `pair_n_needed_for_profit` from `_shares.py`.  Returns `none` exactly when
the Python code raises `ZeroDivisionError` (zero `min_margin`, or zero
per-share profit). -/
def pair_n_needed_for_profit (pair : Pair) (profit sell_price min_buy_price : Rat)
    (min_margin : Rat) : Option (Int × Rat) :=
  if sell_price ≤ pair.1 then some (0, 0)
  else if min_margin = 0 then none
  else
    let adjusted_buy_price := min pair.1 (sell_price / min_margin)
    let profit_per_share := sell_price - max adjusted_buy_price min_buy_price
    if profit_per_share = 0 then none
    else
      let n := min ⌈profit / profit_per_share⌉ pair.2
      some (n, profit_per_share * n)

/-- The inner `while` of `as_split`: collect the pairs belonging to the
current bucket (upper bound `u`); the walk stops at the first pair priced
above `u` (`pair[0] > current_upper` advances the bucket).  Returns the bucket
and the unconsumed pairs. -/
def asSplitBucket (u : Rat) : Pairs → Pairs × Pairs
  | [] => ([], [])
  | p :: ps =>
    if u < p.1 then ([], p :: ps)
    else
      let (g, rest) := asSplitBucket u ps
      (p :: g, rest)

/-- The bucket loop of `as_split`: one bucket per split point, in ascending
order, plus a final bucket (upper bound `None`) taking everything left.
Buckets whose split point is skipped come out empty, matching the
`while current_upper is not None and pair[0] > current_upper` advance and the
trailing padding with empty groups. -/
def asSplitGroups : Pairs → List Rat → List Pairs
  | ps, [] => [ps]
  | ps, u :: qs =>
    let (g, rest) := asSplitBucket u ps
    g :: asSplitGroups rest qs

/-- `Shares.as_split(price_levels)` on raw pairs. -/
def as_split (ps : Pairs) (price_levels : List Rat) : List Pairs :=
  if price_levels.isEmpty then [clone_pairs ps]
  else asSplitGroups ps (stableSort (fun a b => decide (a ≤ b)) price_levels)

/-! ### `search_helper.py`

Callbacks return `Option Bool` so that a callback that raises (models a
Python exception inside the callback) propagates; loops take explicit fuel,
with `none` covering both a raise and non-termination. -/

/-- The `while True` loop body of `binary_search`.  Faithful to the source:
`middle = (a + b) // 2` (floor division), `last_good`/`a`/`b` updates, and the
exit test `last_good == b or a > b` evaluated on the updated values. -/
def binarySearchGo (cb : Int → Option Bool) :
    Nat → Int → Int → Option Int → Option (Option Int)
  | 0, _, _, _ => none
  | fuel + 1, a, b, lastGood =>
    let middle := (a + b) / 2
    match cb middle with
    | none => none
    | some true =>
      let lastGood2 : Option Int := some middle
      let a2 := middle + 1
      if lastGood2 = some b ∨ a2 > b then some lastGood2
      else binarySearchGo cb fuel a2 b lastGood2
    | some false =>
      let b2 := middle - 1
      if lastGood = some b2 ∨ a > b2 then some lastGood
      else binarySearchGo cb fuel a b2 lastGood

/-- `binary_search(callback, min_n, max_n)`.  The outer `none` models the
"Invalid search range" exception, a raising callback, or a non-terminating
loop; the inner `Option Int` is the Python return value (`None` or `n`).
The fuel `(max_n - min_n).toNat + 1` is enough for the loop to finish, which
is proved below. -/
def binary_search (cb : Int → Option Bool) (min_n max_n : Int) :
    Option (Option Int) :=
  if min_n > max_n then none
  else binarySearchGo cb ((max_n - min_n).toNat + 1) min_n max_n none

/-- The doubling loop of `exponential_binary_search`:
`while callback(i): prev_i = i; i = max(i * 2, second_guess)`.
Returns `(prev_i, i)` at exit. -/
def ebsLoop (cb : Int → Option Bool) (second_guess : Int) :
    Nat → Option Int → Int → Option (Option Int × Int)
  | 0, _, _ => none
  | fuel + 1, prev_i, i =>
    match cb i with
    | none => none
    | some true => ebsLoop cb second_guess fuel (some i) (max (i * 2) second_guess)
    | some false => some (prev_i, i)

/-- `exponential_binary_search` after argument validation: run the doubling
loop from `i = min_n`, then the early returns and the bracketed
`binary_search`, exactly as in the source. -/
def ebsAfter (cb : Int → Option Bool) (min_n second_guess : Int) (fuel : Nat) :
    Option (Option Int) :=
  match ebsLoop cb second_guess fuel none min_n with
  | none => none
  | some (prev_i, i) =>
    if i = min_n then some none
    else
      match prev_i with
      | none => none
      | some p =>
        if i = p + 1 then some (some i)
        else
          match binary_search cb (p + 1) (i - 1) with
          | none => none
          | some none => some (some p)
          | some (some r) => some (some r)

/-- `exponential_binary_search(callback, min_n, second_guess)`.  Validates
`min_n` and `second_guess` (raising, i.e. `none`, as in the source) and
defaults `second_guess` to `min_n + 1`. -/
def exponential_binary_search (cb : Int → Option Bool) (min_n : Int)
    (second_guess : Option Int) (fuel : Nat) : Option (Option Int) :=
  if min_n < 0 then none
  else
    match second_guess with
    | some sg => if sg ≤ min_n then none else ebsAfter cb min_n sg fuel
    | none => ebsAfter cb min_n (min_n + 1) fuel

/-! ### `target.py`, `assignment.py`, `distribute.py` -/

/-- `Target`: a sell rule.  Field order follows the constructor
`Target(name, profit, sell_price, max_buy_price, min_buy_price)`.
The distribution engine treats each list entry as a distinct target object
(the caller must supply a list deduplicated by identity, per the interface
contract), so `target_to_assignment` is modelled as an association list. -/
structure Target where
  name : String
  profit : Rat
  sell_price : Rat
  max_buy_price : Rat
  min_buy_price : Rat
deriving Repr, DecidableEq

/-- `Assignment` (the mutable `shares`/`profit` cell per target; the `target`
field is the association key). -/
structure Assignment where
  shares : Pairs
  profit : Rat
deriving Repr, DecidableEq

/-- `DistributionReport`. -/
structure DistributionReport where
  target_to_assignment : List (Target × Assignment)
  unbound_shares : Pairs
  all_satisfied : Bool
  buyables_satisfied : Bool
  buys_needed : Option Int
deriving Repr, DecidableEq

/-- The target sort key of `distribute_pass`:
`sorted(targets, key=lambda t: (t.max_buy_price, t.sell_price))`. -/
def targetLe (a b : Target) : Bool :=
  a.max_buy_price < b.max_buy_price ∨
    (a.max_buy_price = b.max_buy_price ∧ a.sell_price ≤ b.sell_price)

/-- The "best alternative" scan of `distribute_pass` (lines 116-132): walk the
remaining pairs, stopping past `max_buy_price`, scoring each candidate, and
stopping right after the first pair at or above `min_buy_price`. -/
def choose_alternative (t : Target) : Pairs → Option Pair → Option Rat → Option Pair
  | [], chosen, _ => chosen
  | ap :: rest, chosen, best_score =>
    if t.max_buy_price < ap.1 then chosen
    else
      let is_above := t.min_buy_price ≤ ap.1
      let base := t.sell_price - max ap.1 t.min_buy_price
      let score := if is_above then base else base - (t.min_buy_price - ap.1)
      let better : Bool :=
        match best_score with
        | none => true
        | some b => decide (b < score)
      let chosen2 := if better then some ap else chosen
      let best2 := if better then some score else best_score
      if is_above then chosen2
      else choose_alternative t rest chosen2 best2

/-- The per-iteration lot choice of `distribute_pass`: the head pair when it
is at or above the target's `min_buy_price`, otherwise the best-scoring
alternative. -/
def step_choice (t : Target) (remaining : Pairs) : Option Pair :=
  match remaining with
  | [] => none
  | pair :: _ =>
    if pair.1 < t.min_buy_price then choose_alternative t remaining none none
    else some pair

/-- The inner `while 0 < len(remaining_shares)` loop of `distribute_pass` for
one target.  `none` models the `IndexError` on an impossible empty pair list,
the `ZeroDivisionError` inside `pair_n_needed_for_profit`, the explicit
`raise` when `n_shares == 0`, running out of fuel (the loop spins forever when
`n_shares < 0`), and a failing subtraction. -/
def passTargetLoop (min_margin : Rat) (t : Target) :
    Nat → Pairs → Assignment → Option (Pairs × Assignment)
  | 0, _, _ => none
  | fuel + 1, remaining, asg =>
    if totalQty remaining ≤ 0 then some (remaining, asg)
    else if t.profit ≤ asg.profit then some (remaining, asg)
    else
      match remaining with
      | [] => none
      | pair :: _ =>
        if t.max_buy_price < pair.1 then some (remaining, asg)
        else
          match step_choice t remaining with
          | none => none
          | some chosen =>
            match pair_n_needed_for_profit chosen (t.profit - asg.profit)
                t.sell_price t.min_buy_price min_margin with
            | none => none
            | some (n, profit) =>
              if 0 < n then
                match subPairs remaining (convertSingle chosen.1 n) with
                | .error _ => none
                | .ok remaining2 =>
                  passTargetLoop min_margin t fuel remaining2
                    ⟨addPairs asg.shares (convertSingle chosen.1 n),
                      asg.profit + profit⟩
              else if n = 0 then none
              else passTargetLoop min_margin t fuel remaining asg

/-- The `for target in targets` loop of `distribute_pass`, fed with the
already-sorted target list.  Accumulates the per-target assignments (in
reverse, flipped at the end) and the `all_satisfied` / `buyables_satisfied`
flags. -/
def passGo (fuel : Nat) (current_price min_margin : Rat) :
    List Target → Pairs → List (Target × Assignment) → Bool → Bool →
    Option DistributionReport
  | [], remaining, acc, all_satisfied, buyables_satisfied =>
    some ⟨acc.reverse, remaining, all_satisfied, buyables_satisfied, none⟩
  | t :: ts, remaining, acc, all_satisfied, buyables_satisfied =>
    match passTargetLoop min_margin t fuel remaining ⟨[], 0⟩ with
    | none => none
    | some (remaining2, asg) =>
      if asg.profit < t.profit then
        let could_buy_to_satisfy := current_price ≤ t.max_buy_price
        passGo fuel current_price min_margin ts remaining2 ((t, asg) :: acc)
          false (buyables_satisfied && !(decide could_buy_to_satisfy))
      else
        passGo fuel current_price min_margin ts remaining2 ((t, asg) :: acc)
          all_satisfied buyables_satisfied

/-- `distribute_pass(shares, targets, current_price, min_margin)`: sort the
targets by `(max_buy_price, sell_price)`, clone the ledger, and run the
assignment loop. -/
def distribute_pass (fuel : Nat) (shares : Pairs) (targets : List Target)
    (current_price min_margin : Rat) : Option DistributionReport :=
  passGo fuel current_price min_margin (stableSort targetLe targets)
    (clone_pairs shares) [] true true

/-- The buy-search callback of `distribute`:
`lambda n: not distribute_pass(shares + [current_price, n], ...).buyables_satisfied`. -/
def buyCallback (fuel : Nat) (shares : Pairs) (targets : List Target)
    (current_price min_margin : Rat) (n : Int) : Option Bool :=
  (distribute_pass fuel (addPairs shares (convertSingle current_price n))
      targets current_price min_margin).map
    (fun r => !r.buyables_satisfied)

/-- The sell-search callback of `distribute`:
`lambda n: distribute_pass(shares - shares.bottom(n), ...).all_satisfied`. -/
def sellCallback (fuel : Nat) (shares : Pairs) (targets : List Target)
    (current_price min_margin : Rat) (n : Int) : Option Bool :=
  match bottomPairs shares n with
  | none => none
  | some bot =>
    match subPairs shares bot with
    | .error _ => none
    | .ok tryShares =>
      (distribute_pass fuel tryShares targets current_price min_margin).map
        (fun r => r.all_satisfied)

/-- `distribute(shares, targets, current_price, min_margin)`: first pass, then
either the exponential buy search (recording `buys_needed = result + 1`), the
binary sell search (re-running the pass on the retained shares and returning
the held-out shares in `unbound_shares`), or the first report unchanged. -/
def distribute (fuel : Nat) (shares : Pairs) (targets : List Target)
    (current_price min_margin : Rat) : Option DistributionReport :=
  match distribute_pass fuel shares targets current_price min_margin with
  | none => none
  | some first_report =>
    if !first_report.buyables_satisfied then
      match exponential_binary_search
          (buyCallback fuel shares targets current_price min_margin)
          0 (some 32) fuel with
      | some (some n) => some { first_report with buys_needed := some (n + 1) }
      | _ => none
    else if first_report.all_satisfied &&
        decide (0 < totalQty first_report.unbound_shares) then
      match binary_search
          (sellCallback fuel shares targets current_price min_margin)
          0 (totalQty shares) with
      | some (some n_sell) =>
        if n_sell = 0 then some first_report
        else
          match bottomPairs shares n_sell with
          | none => none
          | some held_out_shares =>
            match subPairs shares held_out_shares with
            | .error _ => none
            | .ok retained_shares =>
              match distribute_pass fuel retained_shares targets current_price
                  min_margin with
              | none => none
              | some report =>
                some { report with
                  unbound_shares :=
                    addPairs report.unbound_shares held_out_shares }
      | _ => none
    else some first_report

/-! ### Multiset-conservation lemmas for the ledger operations -/

theorem qtyAt_sort_pairs (ps : Pairs) (price : Rat) :
    qtyAt (sort_pairs ps) price = qtyAt ps price :=
  qtyAt_perm (stableSort_perm pairLe ps) price

theorem totalQty_sort_pairs (ps : Pairs) :
    totalQty (sort_pairs ps) = totalQty ps :=
  totalQty_perm (stableSort_perm pairLe ps)

theorem mem_sort_pairs {p : Pair} {ps : Pairs} :
    p ∈ sort_pairs ps ↔ p ∈ ps :=
  (stableSort_perm pairLe ps).mem_iff

theorem qtyAt_bumpOrAppend (eps : Pairs) (np : Pair) (price : Rat) :
    qtyAt (bumpOrAppend eps np) price
      = qtyAt eps price + (if np.1 = price then np.2 else 0) := by
  induction eps with
  | nil => simp [bumpOrAppend, qtyAt_cons]
  | cons ep eps ih =>
    unfold bumpOrAppend
    by_cases h : np.1 = ep.1
    · rw [if_pos h, qtyAt_cons, qtyAt_cons]
      by_cases h2 : ep.1 = price
      · simp only [if_pos h2, if_pos (h.trans h2)]
        ring
      · simp only [if_neg h2, if_neg (fun hc => h2 (h.symm.trans hc))]
        ring
    · rw [if_neg h, qtyAt_cons, qtyAt_cons, ih]
      ring

theorem qtyAt_mergeNoSort (eps nps : Pairs) (price : Rat) :
    qtyAt (mergeNoSort eps nps) price = qtyAt eps price + qtyAt nps price := by
  induction nps generalizing eps with
  | nil => simp [mergeNoSort]
  | cons np nps ih =>
    unfold mergeNoSort at *
    simp only [List.foldl_cons]
    rw [ih (bumpOrAppend eps np), qtyAt_bumpOrAppend, qtyAt_cons]
    ring

theorem qtyAt_addPairs (s o : Pairs) (price : Rat) :
    qtyAt (addPairs s o) price = qtyAt s price + qtyAt o price := by
  unfold addPairs
  rw [qtyAt_sort_pairs, qtyAt_mergeNoSort]

/-- On success, `subQty` leaves the price column unchanged (only a quantity is
decremented in place). -/
theorem subQty_map_fst {ps ps2 : Pairs} {price : Rat} {q : Int}
    (h : subQty ps price q = .ok ps2) :
    ps2.map Prod.fst = ps.map Prod.fst := by
  induction ps generalizing ps2 with
  | nil => simp [subQty] at h
  | cons p ps ih =>
    unfold subQty at h
    by_cases htol : |p.1 - price| < 1/200
    · rw [if_pos htol] at h
      by_cases hlt : p.2 < q
      · rw [if_pos hlt] at h; cases h
      · rw [if_neg hlt] at h
        cases h
        simp
    · rw [if_neg htol] at h
      cases h2 : subQty ps price q with
      | error e => rw [h2] at h; cases h
      | ok ps3 =>
        rw [h2] at h
        cases h
        simp [ih h2]

/-- On a penny-quantized ledger, a successful `subQty` removes exactly `q`
shares at exactly `price` (the half-cent tolerance cannot match any other
quantized price). -/
theorem subQty_qtyAt {ps ps2 : Pairs} {price : Rat} {q : Int}
    (hq : QuantizedAll ps) (hp : Quantized price)
    (h : subQty ps price q = .ok ps2) (r : Rat) :
    qtyAt ps2 r = qtyAt ps r - (if price = r then q else 0) := by
  induction ps generalizing ps2 with
  | nil => simp [subQty] at h
  | cons p ps ih =>
    unfold subQty at h
    by_cases htol : |p.1 - price| < 1/200
    · rw [if_pos htol] at h
      by_cases hlt : p.2 < q
      · rw [if_pos hlt] at h; cases h
      · rw [if_neg hlt] at h
        cases h
        have hpp : p.1 = price := quantized_close_eq (hq p (by simp)) hp htol
        rw [qtyAt_cons, qtyAt_cons]
        subst hpp
        by_cases hr : p.1 = r
        · rw [if_pos hr, if_pos hr, if_pos hr]
          ring
        · rw [if_neg hr, if_neg hr, if_neg hr]
          ring
    · rw [if_neg htol] at h
      cases h2 : subQty ps price q with
      | error e => rw [h2] at h; cases h
      | ok ps3 =>
        rw [h2] at h
        cases h
        have hqs : QuantizedAll ps := fun x hx => hq x (List.mem_cons_of_mem p hx)
        rw [qtyAt_cons, qtyAt_cons, ih hqs h2]
        ring

theorem quantizedAll_of_map_fst_eq {ps ps2 : Pairs}
    (h : ps2.map Prod.fst = ps.map Prod.fst) (hq : QuantizedAll ps) :
    QuantizedAll ps2 := by
  intro p hp
  have : p.1 ∈ ps2.map Prod.fst := List.mem_map_of_mem Prod.fst hp
  rw [h] at this
  rcases List.mem_map.mp this with ⟨p2, hp2, hfst⟩
  rw [← hfst]
  exact hq p2 hp2

theorem subAll_qtyAt {ps ps2 os : Pairs}
    (hq : QuantizedAll ps) (ho : QuantizedAll os)
    (h : subAll ps os = .ok ps2) (r : Rat) :
    ps2.map Prod.fst = ps.map Prod.fst ∧
      qtyAt ps2 r = qtyAt ps r - qtyAt os r := by
  induction os generalizing ps with
  | nil =>
    cases h
    simp
  | cons o os ih =>
    unfold subAll at h
    cases h2 : subQty ps o.1 o.2 with
    | error e => rw [h2] at h; cases h
    | ok mid =>
      rw [h2] at h
      have hmid_fst := subQty_map_fst h2
      have hmidq : QuantizedAll mid := quantizedAll_of_map_fst_eq hmid_fst hq
      have hos : QuantizedAll os := fun x hx => ho x (List.mem_cons_of_mem o hx)
      rcases ih hmidq hos h with ⟨hfst, hqty⟩
      refine ⟨hfst.trans hmid_fst, ?_⟩
      rw [hqty, subQty_qtyAt hq (ho o (by simp)) h2 r, qtyAt_cons]
      by_cases hr : o.1 = r
      · simp only [if_pos hr]; ring
      · simp only [if_neg hr]; ring

theorem prune_zeros_sublist {ps ps2 : Pairs} (h : prune_zeros ps = .ok ps2) :
    ps2.Sublist ps := by
  induction ps generalizing ps2 with
  | nil => cases h; exact List.Sublist.refl []
  | cons p ps ih =>
    unfold prune_zeros at h
    by_cases hneg : p.2 < 0
    · rw [if_pos hneg] at h; cases h
    · rw [if_neg hneg] at h
      by_cases hpos : 0 < p.2
      · rw [if_pos hpos] at h
        cases h2 : prune_zeros ps with
        | error e => rw [h2] at h; cases h
        | ok ps3 =>
          rw [h2] at h
          cases h
          exact (ih h2).cons₂ p
      · rw [if_neg hpos] at h
        exact (ih h).cons p

theorem prune_zeros_qtyAt {ps ps2 : Pairs} (h : prune_zeros ps = .ok ps2)
    (r : Rat) : qtyAt ps2 r = qtyAt ps r := by
  induction ps generalizing ps2 with
  | nil => cases h; rfl
  | cons p ps ih =>
    unfold prune_zeros at h
    by_cases hneg : p.2 < 0
    · rw [if_pos hneg] at h; cases h
    · rw [if_neg hneg] at h
      by_cases hpos : 0 < p.2
      · rw [if_pos hpos] at h
        cases h2 : prune_zeros ps with
        | error e => rw [h2] at h; cases h
        | ok ps3 =>
          rw [h2] at h
          cases h
          rw [qtyAt_cons, qtyAt_cons, ih h2]
      · rw [if_neg hpos] at h
        have hz : p.2 = 0 := by omega
        rw [qtyAt_cons, ih h, hz]
        simp

theorem prune_zeros_pos {ps ps2 : Pairs} (h : prune_zeros ps = .ok ps2) :
    ∀ p ∈ ps2, 0 < p.2 := by
  induction ps generalizing ps2 with
  | nil => cases h; intro p hp; cases hp
  | cons p ps ih =>
    unfold prune_zeros at h
    by_cases hneg : p.2 < 0
    · rw [if_pos hneg] at h; cases h
    · rw [if_neg hneg] at h
      by_cases hpos : 0 < p.2
      · rw [if_pos hpos] at h
        cases h2 : prune_zeros ps with
        | error e => rw [h2] at h; cases h
        | ok ps3 =>
          rw [h2] at h
          cases h
          intro x hx
          rcases List.mem_cons.mp hx with hxp | hxs
          · rw [hxp]; exact hpos
          · exact ih h2 x hxs
      · rw [if_neg hpos] at h
        exact ih h

/-- Exact multiset subtraction: on a penny-quantized ledger, a successful
`Shares.__sub__` removes exactly the subtrahend quantities at their exact
prices, and the surviving prices are a sub-collection of the original. -/
theorem subPairs_qtyAt {s o r : Pairs}
    (hs : QuantizedAll s) (ho : QuantizedAll o)
    (h : subPairs s o = .ok r) :
    (∀ price, qtyAt r price = qtyAt s price - qtyAt o price) ∧
      QuantizedAll r := by
  unfold subPairs at h
  cases h2 : subAll s o with
  | error e => rw [h2] at h; cases h
  | ok mid =>
    rw [h2] at h
    constructor
    · intro price
      rcases subAll_qtyAt hs ho h2 price with ⟨_, hqty⟩
      rw [prune_zeros_qtyAt h price, hqty]
    · rcases subAll_qtyAt hs ho h2 0 with ⟨hfst, _⟩
      have hmidq : QuantizedAll mid := quantizedAll_of_map_fst_eq hfst hs
      intro p hp
      exact hmidq p ((prune_zeros_sublist h).mem hp)

theorem quantizedAll_convertList (l : List (Rat × Int)) :
    QuantizedAll (convertList l) := by
  intro p hp
  unfold convertList at hp
  rcases List.mem_map.mp hp with ⟨x, _, hx⟩
  rw [← hx]
  exact quantized_pennyRound x.1

theorem quantizedAll_convertSingle (price : Rat) (q : Int) :
    QuantizedAll (convertSingle price q) := by
  intro p hp
  unfold convertSingle at hp
  by_cases h : 0 < q
  · rw [if_pos h] at hp
    rcases List.mem_singleton.mp hp with rfl
    exact quantized_pennyRound price
  · rw [if_neg h] at hp
    cases hp

theorem convertSingle_pos {price : Rat} {q : Int} (h : 0 < q) :
    convertSingle price q = [(pennyRound price, q)] := by
  unfold convertSingle
  rw [if_pos h]

theorem qtyAt_convertSingle_pos {price : Rat} {q : Int} (hq : 0 < q)
    (hquant : Quantized price) (r : Rat) :
    qtyAt (convertSingle price q) r = if price = r then q else 0 := by
  rw [convertSingle_pos hq, pennyRound_quantized price hquant]
  simp [qtyAt_cons]

theorem bumpOrAppend_fst_mem {eps : Pairs} {np p : Pair}
    (hp : p ∈ bumpOrAppend eps np) :
    p.1 ∈ eps.map Prod.fst ∨ p.1 = np.1 := by
  induction eps with
  | nil =>
    unfold bumpOrAppend at hp
    rcases List.mem_singleton.mp hp with rfl
    right; rfl
  | cons ep eps ih =>
    unfold bumpOrAppend at hp
    by_cases h : np.1 = ep.1
    · rw [if_pos h] at hp
      rcases List.mem_cons.mp hp with rfl | hmem
      · left; simp
      · left
        simp only [List.map_cons, List.mem_cons]
        right
        exact List.mem_map_of_mem Prod.fst hmem
    · rw [if_neg h] at hp
      rcases List.mem_cons.mp hp with rfl | hmem
      · left; simp
      · rcases ih hmem with hin | heq
        · left
          simp only [List.map_cons, List.mem_cons]
          right; exact hin
        · right; exact heq

theorem mergeNoSort_fst_mem {s o : Pairs} {p : Pair}
    (hp : p ∈ mergeNoSort s o) :
    p.1 ∈ s.map Prod.fst ∨ p.1 ∈ o.map Prod.fst := by
  induction o generalizing s with
  | nil =>
    left
    exact List.mem_map_of_mem Prod.fst hp
  | cons np nps ih =>
    unfold mergeNoSort at hp ih
    simp only [List.foldl_cons] at hp
    rcases ih hp with hin | hin
    · rcases List.mem_map.mp hin with ⟨x, hx, hfst⟩
      rcases bumpOrAppend_fst_mem hx with h2 | h2
      · left; rw [← hfst]; exact h2
      · right; rw [← hfst, h2]; simp
    · right
      simp only [List.map_cons, List.mem_cons]
      right; exact hin

theorem quantizedAll_addPairs {s o : Pairs}
    (hs : QuantizedAll s) (ho : QuantizedAll o) :
    QuantizedAll (addPairs s o) := by
  intro p hp
  unfold addPairs at hp
  rw [mem_sort_pairs] at hp
  rcases mergeNoSort_fst_mem hp with hin | hin
  · rcases List.mem_map.mp hin with ⟨x, hx, hfst⟩
    rw [← hfst]; exact hs x hx
  · rcases List.mem_map.mp hin with ⟨x, hx, hfst⟩
    rw [← hfst]; exact ho x hx

/-! ### Conservation through `distribute_pass` and `distribute` (claim C1) -/

theorem choose_alternative_mem (t : Target) :
    ∀ (ps : Pairs) (c : Option Pair) (b : Option Rat) (x : Pair),
      choose_alternative t ps c b = some x → x ∈ ps ∨ c = some x := by
  intro ps
  induction ps with
  | nil =>
    intro c b x h
    right; exact h
  | cons ap rest ih =>
    intro c b x h
    unfold choose_alternative at h
    by_cases h1 : t.max_buy_price < ap.1
    · rw [if_pos h1] at h
      right; exact h
    · rw [if_neg h1] at h
      simp only at h
      by_cases h2 : t.min_buy_price ≤ ap.1
      · rw [if_pos h2] at h
        rcases hb : (match b with
            | none => true
            | some bv => decide (bv < (if t.min_buy_price ≤ ap.1 then
                t.sell_price - max ap.1 t.min_buy_price
              else t.sell_price - max ap.1 t.min_buy_price -
                (t.min_buy_price - ap.1)))) with _ | _
        all_goals rw [hb] at h
        · right
          simpa using h
        · left
          simp only [if_pos] at h
          rcases h with h
          simp only [Option.some.injEq] at h
          rw [← h]
          simp
      · rw [if_neg h2] at h
        rcases hb : (match b with
            | none => true
            | some bv => decide (bv < (if t.min_buy_price ≤ ap.1 then
                t.sell_price - max ap.1 t.min_buy_price
              else t.sell_price - max ap.1 t.min_buy_price -
                (t.min_buy_price - ap.1)))) with _ | _
        all_goals rw [hb] at h
        · rcases ih _ _ _ h with hin | hc
          · left; exact List.mem_cons_of_mem ap hin
          · right; exact hc
        · rcases ih _ _ _ h with hin | hc
          · left; exact List.mem_cons_of_mem ap hin
          · left
            simp only [if_pos, Option.some.injEq] at hc
            rw [← hc]
            simp

theorem step_choice_mem {t : Target} {remaining : Pairs} {chosen : Pair}
    (h : step_choice t remaining = some chosen) : chosen ∈ remaining := by
  unfold step_choice at h
  cases remaining with
  | nil => cases h
  | cons pair rest =>
    dsimp only at h
    by_cases h1 : pair.1 < t.min_buy_price
    · rw [if_pos h1] at h
      rcases choose_alternative_mem t _ _ _ _ h with hin | hc
      · exact hin
      · cases hc
    · rw [if_neg h1] at h
      cases h
      simp

theorem passTargetLoop_conserve (m : Rat) (t : Target) :
    ∀ (fuel : Nat) (remaining : Pairs) (asg : Assignment) (rem2 : Pairs)
      (asg2 : Assignment),
      QuantizedAll remaining →
      passTargetLoop m t fuel remaining asg = some (rem2, asg2) →
      (∀ r, qtyAt rem2 r + qtyAt asg2.shares r
          = qtyAt remaining r + qtyAt asg.shares r) ∧ QuantizedAll rem2 := by
  intro fuel
  induction fuel with
  | zero =>
    intro remaining asg rem2 asg2 hq h
    simp [passTargetLoop] at h
  | succ fuel ih =>
    intro remaining asg rem2 asg2 hq h
    unfold passTargetLoop at h
    by_cases h1 : totalQty remaining ≤ 0
    · rw [if_pos h1] at h
      cases h
      exact ⟨fun r => rfl, hq⟩
    · rw [if_neg h1] at h
      by_cases h2 : t.profit ≤ asg.profit
      · rw [if_pos h2] at h
        cases h
        exact ⟨fun r => rfl, hq⟩
      · rw [if_neg h2] at h
        cases remaining with
        | nil =>
          exfalso
          exact h1 (by simp [totalQty])
        | cons pair rest =>
          dsimp only at h
          by_cases h3 : t.max_buy_price < pair.1
          · rw [if_pos h3] at h
            cases h
            exact ⟨fun r => rfl, hq⟩
          · rw [if_neg h3] at h
            cases hch : step_choice t (pair :: rest) with
            | none => rw [hch] at h; cases h
            | some chosen =>
              rw [hch] at h
              dsimp only at h
              cases hpn : pair_n_needed_for_profit chosen (t.profit - asg.profit)
                  t.sell_price t.min_buy_price m with
              | none => rw [hpn] at h; cases h
              | some np =>
                rw [hpn] at h
                rcases np with ⟨n, profit⟩
                dsimp only at h
                by_cases h4 : 0 < n
                · rw [if_pos h4] at h
                  cases hsub : subPairs (pair :: rest) (convertSingle chosen.1 n) with
                  | error e => rw [hsub] at h; cases h
                  | ok remaining2 =>
                    rw [hsub] at h
                    have hchq : Quantized chosen.1 := hq chosen (step_choice_mem hch)
                    rcases subPairs_qtyAt hq (quantizedAll_convertSingle chosen.1 n)
                      hsub with ⟨hsq, hq2⟩
                    rcases ih remaining2 _ rem2 asg2 hq2 h with ⟨hrec, hq3⟩
                    refine ⟨?_, hq3⟩
                    intro r
                    rw [hrec r]
                    simp only [hsq r, qtyAt_addPairs,
                      qtyAt_convertSingle_pos h4 hchq r]
                    ring
                · rw [if_neg h4] at h
                  by_cases h5 : n = 0
                  · rw [if_pos h5] at h; cases h
                  · rw [if_neg h5] at h
                    exact ih _ _ rem2 asg2 hq h

/-- Total quantity assigned across all targets of a report at a given price. -/
def assignmentQty (r : DistributionReport) (price : Rat) : Int :=
  (r.target_to_assignment.map (fun ta => qtyAt ta.2.shares price)).sum

theorem passGo_conserve (fuel : Nat) (cp m : Rat) :
    ∀ (ts : List Target) (remaining : Pairs)
      (acc : List (Target × Assignment)) (allS buyS : Bool)
      (rep : DistributionReport),
      QuantizedAll remaining →
      passGo fuel cp m ts remaining acc allS buyS = some rep →
      ∀ r, assignmentQty rep r + qtyAt rep.unbound_shares r
          = (acc.map (fun ta => qtyAt ta.2.shares r)).sum + qtyAt remaining r := by
  intro ts
  induction ts with
  | nil =>
    intro remaining acc allS buyS rep hq h
    cases h
    intro r
    simp only [assignmentQty, List.map_reverse, List.sum_reverse]
  | cons t ts ih =>
    intro remaining acc allS buyS rep hq h
    unfold passGo at h
    cases hloop : passTargetLoop m t fuel remaining ⟨[], 0⟩ with
    | none => rw [hloop] at h; cases h
    | some pr =>
      rw [hloop] at h
      rcases pr with ⟨remaining2, asg⟩
      dsimp only at h
      rcases passTargetLoop_conserve m t fuel remaining ⟨[], 0⟩ remaining2 asg hq
        hloop with ⟨hcons, hq2⟩
      have hstep : ∀ r, qtyAt remaining2 r + qtyAt asg.shares r
          = qtyAt remaining r := by
        intro r
        have := hcons r
        simpa using this
      by_cases hsat : asg.profit < t.profit
      · rw [if_pos hsat] at h
        intro r
        rw [ih remaining2 ((t, asg) :: acc) _ _ rep hq2 h r]
        simp only [List.map_cons, List.sum_cons]
        rw [← hstep r]
        ring
      · rw [if_neg hsat] at h
        intro r
        rw [ih remaining2 ((t, asg) :: acc) _ _ rep hq2 h r]
        simp only [List.map_cons, List.sum_cons]
        rw [← hstep r]
        ring

theorem distribute_pass_conserve {fuel : Nat} {shares : Pairs}
    {targets : List Target} {cp m : Rat} {rep : DistributionReport}
    (hq : QuantizedAll shares)
    (h : distribute_pass fuel shares targets cp m = some rep) :
    ∀ r, assignmentQty rep r + qtyAt rep.unbound_shares r = qtyAt shares r := by
  unfold distribute_pass at h
  intro r
  have := passGo_conserve fuel cp m (stableSort targetLe targets)
    (clone_pairs shares) [] true true rep hq h r
  simpa [clone_pairs] using this

theorem bottomPairs_quantized {ps held : Pairs} {n : Int}
    (h : bottomPairs ps n = some held) : QuantizedAll held := by
  unfold bottomPairs at h
  cases h2 : first_shares ps n with
  | none => rw [h2] at h; cases h
  | some x =>
    rw [h2] at h
    cases h
    exact quantizedAll_convertList x

/-- Claim C1 (conservation): in every branch of `distribute`, the returned
report partitions the input ledger exactly: at every price, the shares
assigned across all targets plus the unbound shares equal the input ledger's
shares (`buys_needed` is only a separately reported count). -/
theorem distribute_conservation (fuel : Nat) (shares : Pairs)
    (targets : List Target) (current_price min_margin : Rat)
    (rep : DistributionReport) (hq : QuantizedAll shares)
    (h : distribute fuel shares targets current_price min_margin = some rep) :
    ∀ r, assignmentQty rep r + qtyAt rep.unbound_shares r = qtyAt shares r := by
  unfold distribute at h
  cases hfirst : distribute_pass fuel shares targets current_price min_margin with
  | none => rw [hfirst] at h; cases h
  | some first_report =>
    rw [hfirst] at h
    dsimp only at h
    have hfc := distribute_pass_conserve hq hfirst
    by_cases hb : !first_report.buyables_satisfied
    · rw [if_pos hb] at h
      cases hebs : exponential_binary_search
          (buyCallback fuel shares targets current_price min_margin)
          0 (some 32) fuel with
      | none => rw [hebs] at h; cases h
      | some inner =>
        rw [hebs] at h
        cases inner with
        | none => cases h
        | some n =>
          cases h
          intro r
          exact hfc r
    · rw [if_neg hb] at h
      by_cases hs : first_report.all_satisfied = true ∧
          decide (0 < totalQty first_report.unbound_shares) = true
      · rw [if_pos (by simp [hs.1, hs.2])] at h
        cases hbs : binary_search
            (sellCallback fuel shares targets current_price min_margin)
            0 (totalQty shares) with
        | none => rw [hbs] at h; cases h
        | some inner =>
          rw [hbs] at h
          cases inner with
          | none => cases h
          | some n_sell =>
            dsimp only at h
            by_cases hz : n_sell = 0
            · rw [if_pos hz] at h
              cases h
              intro r
              exact hfc r
            · rw [if_neg hz] at h
              cases hbot : bottomPairs shares n_sell with
              | none => rw [hbot] at h; cases h
              | some held_out =>
                rw [hbot] at h
                dsimp only at h
                cases hsub : subPairs shares held_out with
                | error e => rw [hsub] at h; cases h
                | ok retained =>
                  rw [hsub] at h
                  dsimp only at h
                  cases hpass : distribute_pass fuel retained targets
                      current_price min_margin with
                  | none => rw [hpass] at h; cases h
                  | some report =>
                    rw [hpass] at h
                    cases h
                    have hheldq := bottomPairs_quantized hbot
                    rcases subPairs_qtyAt hq hheldq hsub with ⟨hsq, hretq⟩
                    have hrc := distribute_pass_conserve hretq hpass
                    intro r
                    have h1 := hrc r
                    have h2 := hsq r
                    simp only [assignmentQty] at h1 ⊢
                    simp only [qtyAt_addPairs]
                    omega
      · rw [if_neg (by
          intro hcontra
          rcases Bool.and_eq_true_iff.mp hcontra with ⟨ha, hb2⟩
          exact hs ⟨ha, hb2⟩)] at h
        cases h
        intro r
        exact hfc r

/-- Witness for claim C1: a concrete run of `distribute` whose report
partitions the input ledger. -/
theorem distribute_conservation_witness :
    ∃ rep, distribute 20 [((1 : Rat), 1)] [⟨"t", 1, 3, 5, 0⟩] 1 1 = some rep ∧
      ∀ r, assignmentQty rep r + qtyAt rep.unbound_shares r
        = qtyAt [((1 : Rat), 1)] r := by
  cases hd : distribute 20 [((1 : Rat), 1)] [⟨"t", 1, 3, 5, 0⟩] 1 1 with
  | none => exact absurd hd (by with_unfolding_all decide)
  | some rep =>
    exact ⟨rep, rfl,
      distribute_conservation 20 [((1 : Rat), 1)] [⟨"t", 1, 3, 5, 0⟩] 1 1 rep
        (by with_unfolding_all decide) hd⟩

/-! ### Specification of the searches (used for claim C2)

The key fact is that `binary_search` (with any callback, monotone or not)
can only return `some k` where `callback(k)` was observed `True` and either
`k` is the top of the searched range or `callback(k + 1)` was observed
`False`; and it returns `None` only having observed `callback(min_n)` =
`False`. -/

theorem binarySearchGo_spec (cb : Int → Option Bool) (aInit bInit : Int) :
    ∀ (fuel : Nat) (a b : Int) (lastGood : Option Int) (res : Option Int),
      a ≤ b → aInit ≤ a → b ≤ bInit →
      (lastGood = none → a = aInit) →
      (∀ l, lastGood = some l → cb l = some true ∧ l + 1 = a ∧ aInit ≤ l) →
      (b = bInit ∨ cb (b + 1) = some false) →
      binarySearchGo cb fuel a b lastGood = some res →
      (res = none → cb aInit = some false) ∧
      (∀ k, res = some k → cb k = some true ∧
        (k = bInit ∨ cb (k + 1) = some false) ∧ aInit ≤ k ∧ k ≤ bInit) := by
  intro fuel
  induction fuel with
  | zero =>
    intro a b lastGood res _ _ _ _ _ _ h
    simp [binarySearchGo] at h
  | succ fuel ih =>
    intro a b lastGood res hab haI hbI hnone hlast hbF h
    unfold binarySearchGo at h
    dsimp only at h
    set mid := (a + b) / 2 with hmid
    have hmid_ge : a ≤ mid := by omega
    have hmid_le : mid ≤ b := by omega
    cases hcb : cb mid with
    | none => rw [hcb] at h; cases h
    | some v =>
      rw [hcb] at h
      cases v with
      | true =>
        by_cases hexit : (some mid : Option Int) = some b ∨ mid + 1 > b
        · rw [if_pos hexit] at h
          cases h
          have hmb : mid = b := by
            rcases hexit with h1 | h1
            · exact Option.some_injective _ h1
            · omega
          constructor
          · intro hcontra; cases hcontra
          · intro k hk
            cases hk
            refine ⟨hcb, ?_, by omega, by omega⟩
            rcases hbF with h2 | h2
            · left; omega
            · right; rw [hmb]; exact h2
        · rw [if_neg hexit] at h
          have hne : mid ≠ b := by
            intro hc
            exact hexit (Or.inl (by rw [hc]))
          have hlt : mid + 1 ≤ b := by omega
          exact ih (mid + 1) b (some mid) res hlt (by omega) hbI
            (by intro hc; cases hc)
            (by
              intro l hl
              cases hl
              exact ⟨hcb, rfl, by omega⟩)
            hbF h
      | false =>
        by_cases hexit : lastGood = some (mid - 1) ∨ a > mid - 1
        · rw [if_pos hexit] at h
          cases h
          constructor
          · intro hng
            subst hng
            have ha : a = mid := by
              rcases hexit with h1 | h1
              · cases h1
              · omega
            have h2 := hnone rfl
            have h3 : aInit = mid := by omega
            rw [h3]
            exact hcb
          · intro k hk
            subst hk
            rcases hlast k rfl with ⟨hk1, hk2, hk3⟩
            refine ⟨hk1, ?_, hk3, by omega⟩
            right
            rcases hexit with h1 | h1
            · have : k = mid - 1 := Option.some_injective _ h1
              rw [this]
              simpa using hcb
            · have : k + 1 = mid := by omega
              rw [this]
              exact hcb
        · rw [if_neg hexit] at h
          have hle : a ≤ mid - 1 := by
            by_contra hc
            exact hexit (Or.inr (by omega))
          exact ih a (mid - 1) lastGood res hle haI (by omega) hnone hlast
            (Or.inr (by simpa using hcb)) h

theorem binary_search_spec {cb : Int → Option Bool} {mn mx : Int}
    {res : Option Int} (h : binary_search cb mn mx = some res) :
    (res = none → cb mn = some false) ∧
    (∀ k, res = some k → cb k = some true ∧
      (k = mx ∨ cb (k + 1) = some false) ∧ mn ≤ k ∧ k ≤ mx) := by
  unfold binary_search at h
  by_cases hr : mn > mx
  · rw [if_pos hr] at h; cases h
  · rw [if_neg hr] at h
    exact binarySearchGo_spec cb mn mx _ mn mx none res (by omega) le_rfl le_rfl
      (fun _ => rfl) (by intro l hl; cases hl) (Or.inl rfl) h

theorem ebsLoop_spec (cb : Int → Option Bool) (sg mn : Int)
    (h0 : 0 ≤ mn) (hsg : mn < sg) :
    ∀ (fuel : Nat) (prev : Option Int) (i : Int) (res : Option Int × Int),
      mn ≤ i →
      (prev = none → i = mn) →
      (∀ p, prev = some p → cb p = some true ∧ mn ≤ p ∧ i = max (p * 2) sg) →
      ebsLoop cb sg fuel prev i = some res →
      cb res.2 = some false ∧ mn ≤ res.2 ∧
      (res.1 = none → res.2 = mn) ∧
      (∀ p, res.1 = some p → cb p = some true ∧ mn ≤ p ∧
        res.2 = max (p * 2) sg) := by
  intro fuel
  induction fuel with
  | zero =>
    intro prev i res _ _ _ h
    simp [ebsLoop] at h
  | succ fuel ih =>
    intro prev i res hi hnone hprev h
    unfold ebsLoop at h
    cases hcb : cb i with
    | none => rw [hcb] at h; cases h
    | some v =>
      rw [hcb] at h
      cases v with
      | false =>
        cases h
        exact ⟨hcb, hi, hnone, hprev⟩
      | true =>
        exact ih (some i) (max (i * 2) sg) res (by omega)
          (by intro hc; cases hc)
          (by
            intro p hp
            cases hp
            exact ⟨hcb, hi, rfl⟩) h

theorem ebsAfter_spec {cb : Int → Option Bool} {mn sg : Int} {fuel : Nat}
    {k : Int} (h0 : 0 ≤ mn) (hsg : mn < sg)
    (hsc : ∀ p, mn ≤ p → max (p * 2) sg ≠ p + 1)
    (h : ebsAfter cb mn sg fuel = some (some k)) :
    cb k = some true ∧ cb (k + 1) = some false := by
  unfold ebsAfter at h
  cases hloop : ebsLoop cb sg fuel none mn with
  | none => rw [hloop] at h; cases h
  | some res =>
    rw [hloop] at h
    rcases res with ⟨prev, i⟩
    rcases ebsLoop_spec cb sg mn h0 hsg fuel none mn (prev, i) le_rfl
      (fun _ => rfl) (by intro p hp; cases hp) hloop with ⟨hif, hige, hpn, hps⟩
    dsimp only at h hif hpn hps
    by_cases hieq : i = mn
    · rw [if_pos hieq] at h; cases h
    · rw [if_neg hieq] at h
      cases hprev : prev with
      | none =>
        rw [hprev] at h
        exact absurd (hpn hprev) hieq
      | some p =>
        rw [hprev] at h
        dsimp only at h
        rcases hps p hprev with ⟨hpt, hpge, hieq2⟩
        by_cases hshort : i = p + 1
        · exfalso
          exact hsc p hpge (by rw [← hieq2]; exact hshort)
        · rw [if_neg hshort] at h
          cases hbs : binary_search cb (p + 1) (i - 1) with
          | none => rw [hbs] at h; cases h
          | some inner =>
            rw [hbs] at h
            rcases binary_search_spec hbs with ⟨hbnone, hbsome⟩
            cases inner with
            | none =>
              dsimp only at h
              cases h
              exact ⟨hpt, by simpa using hbnone rfl⟩
            | some r =>
              dsimp only at h
              cases h
              rcases hbsome k rfl with ⟨hrt, hrn, _, hrle⟩
              refine ⟨hrt, ?_⟩
              rcases hrn with hre | hrf
              · rw [hre]
                have h9 : i - 1 + 1 = i := by omega
                rw [h9]
                exact hif
              · exact hrf

theorem exponential_binary_search_0_32_spec {cb : Int → Option Bool}
    {fuel : Nat} {k : Int}
    (h : exponential_binary_search cb 0 (some 32) fuel = some (some k)) :
    cb k = some true ∧ cb (k + 1) = some false := by
  unfold exponential_binary_search at h
  rw [if_neg (by omega)] at h
  dsimp only at h
  rw [if_neg (by omega)] at h
  exact ebsAfter_spec le_rfl (by omega) (by intro p hp; omega) h

/-- `distribute_pass` never sets `buys_needed`. -/
theorem passGo_buys_none (fuel : Nat) (cp m : Rat) :
    ∀ (ts : List Target) (remaining : Pairs)
      (acc : List (Target × Assignment)) (allS buyS : Bool)
      (rep : DistributionReport),
      passGo fuel cp m ts remaining acc allS buyS = some rep →
      rep.buys_needed = none := by
  intro ts
  induction ts with
  | nil =>
    intro remaining acc allS buyS rep h
    cases h
    rfl
  | cons t ts ih =>
    intro remaining acc allS buyS rep h
    unfold passGo at h
    cases hloop : passTargetLoop m t fuel remaining ⟨[], 0⟩ with
    | none => rw [hloop] at h; cases h
    | some pr =>
      rw [hloop] at h
      rcases pr with ⟨remaining2, asg⟩
      dsimp only at h
      by_cases hsat : asg.profit < t.profit
      · rw [if_pos hsat] at h
        exact ih _ _ _ _ _ h
      · rw [if_neg hsat] at h
        exact ih _ _ _ _ _ h

theorem distribute_pass_buys_none {fuel : Nat} {shares : Pairs}
    {targets : List Target} {cp m : Rat} {rep : DistributionReport}
    (h : distribute_pass fuel shares targets cp m = some rep) :
    rep.buys_needed = none :=
  passGo_buys_none fuel cp m _ _ _ _ _ _ h

/-- If a pass result has `all_satisfied = true`, the incoming flags were
preserved: `all_satisfied` entered true and `buyables_satisfied` is the
incoming value (no target was ever unsatisfied, so neither flag was
lowered). -/
theorem passGo_all_satisfied_flags (fuel : Nat) (cp m : Rat) :
    ∀ (ts : List Target) (remaining : Pairs)
      (acc : List (Target × Assignment)) (allS buyS : Bool)
      (rep : DistributionReport),
      passGo fuel cp m ts remaining acc allS buyS = some rep →
      rep.all_satisfied = true →
      allS = true ∧ rep.buyables_satisfied = buyS := by
  intro ts
  induction ts with
  | nil =>
    intro remaining acc allS buyS rep h hall
    cases h
    exact ⟨hall, rfl⟩
  | cons t ts ih =>
    intro remaining acc allS buyS rep h hall
    unfold passGo at h
    cases hloop : passTargetLoop m t fuel remaining ⟨[], 0⟩ with
    | none => rw [hloop] at h; cases h
    | some pr =>
      rw [hloop] at h
      rcases pr with ⟨remaining2, asg⟩
      dsimp only at h
      by_cases hsat : asg.profit < t.profit
      · rw [if_pos hsat] at h
        rcases ih _ _ _ _ _ h hall with ⟨hfalse, _⟩
        cases hfalse
      · rw [if_neg hsat] at h
        exact ih _ _ _ _ _ h hall

/-- An all-satisfied `distribute_pass` report also has
`buyables_satisfied = true`. -/
theorem distribute_pass_all_satisfied_buyables {fuel : Nat} {shares : Pairs}
    {targets : List Target} {cp m : Rat} {rep : DistributionReport}
    (h : distribute_pass fuel shares targets cp m = some rep)
    (hall : rep.all_satisfied = true) : rep.buyables_satisfied = true :=
  (passGo_all_satisfied_flags fuel cp m _ _ _ _ _ _ h hall).2

/-- In every branch, the report returned by `distribute` carries the
`buyables_satisfied` flag of its own first pass. -/
theorem distribute_buyables_eq_first_pass {fuel : Nat} {shares : Pairs}
    {targets : List Target} {cp m : Rat} {rep : DistributionReport}
    (h : distribute fuel shares targets cp m = some rep) :
    ∃ first, distribute_pass fuel shares targets cp m = some first ∧
      rep.buyables_satisfied = first.buyables_satisfied := by
  unfold distribute at h
  cases hfirst : distribute_pass fuel shares targets cp m with
  | none => rw [hfirst] at h; cases h
  | some first_report =>
    rw [hfirst] at h
    dsimp only at h
    refine ⟨first_report, rfl, ?_⟩
    by_cases hb : !first_report.buyables_satisfied
    · rw [if_pos hb] at h
      cases hebs : exponential_binary_search
          (buyCallback fuel shares targets cp m) 0 (some 32) fuel with
      | none => rw [hebs] at h; cases h
      | some inner =>
        rw [hebs] at h
        cases inner with
        | none => cases h
        | some n =>
          cases h
          rfl
    · rw [if_neg hb] at h
      by_cases hs : first_report.all_satisfied = true ∧
          decide (0 < totalQty first_report.unbound_shares) = true
      · rw [if_pos (by simp [hs.1, hs.2])] at h
        cases hbs : binary_search (sellCallback fuel shares targets cp m)
            0 (totalQty shares) with
        | none => rw [hbs] at h; cases h
        | some inner =>
          rw [hbs] at h
          cases inner with
          | none => cases h
          | some n_sell =>
            dsimp only at h
            by_cases hz : n_sell = 0
            · rw [if_pos hz] at h
              cases h
              rfl
            · rw [if_neg hz] at h
              cases hbot : bottomPairs shares n_sell with
              | none => rw [hbot] at h; cases h
              | some held_out =>
                rw [hbot] at h
                dsimp only at h
                cases hsub : subPairs shares held_out with
                | error e => rw [hsub] at h; cases h
                | ok retained =>
                  rw [hsub] at h
                  dsimp only at h
                  cases hpass : distribute_pass fuel retained targets cp m with
                  | none => rw [hpass] at h; cases h
                  | some report =>
                    rw [hpass] at h
                    cases h
                    -- the sell search only strips shares while the pass stays
                    -- all-satisfied, so the final report is all-satisfied and
                    -- hence buyable-satisfied, matching the first pass's flag.
                    rcases binary_search_spec hbs with ⟨_, hsome⟩
                    rcases hsome n_sell rfl with ⟨hcb, _, _, _⟩
                    unfold sellCallback at hcb
                    rw [hbot] at hcb
                    dsimp only at hcb
                    rw [hsub] at hcb
                    dsimp only at hcb
                    rcases Option.map_eq_some'.mp hcb with ⟨rept, hrept, hmap⟩
                    have heq : rept = report :=
                      Option.some_injective _ (hrept.symm.trans hpass)
                    have hall : report.all_satisfied = true := by
                      rw [← heq]
                      simpa using hmap
                    have hbuy := distribute_pass_all_satisfied_buyables hpass hall
                    have hfb : first_report.buyables_satisfied = true := by
                      simpa using hb
                    show report.buyables_satisfied = first_report.buyables_satisfied
                    rw [hbuy, hfb]
      · rw [if_neg (by
          intro hcontra
          rcases Bool.and_eq_true_iff.mp hcontra with ⟨ha, hb2⟩
          exact hs ⟨ha, hb2⟩)] at h
        cases h
        rfl

/-- Claim C2 (tight minimal buy count): whenever `distribute` reports
`buys_needed = n` with `n > 0`, re-running the distribution pass on the
ledger plus `n` shares at the current price yields `buyables_satisfied =
true`, while the ledger plus `n - 1` shares still yields
`buyables_satisfied = false`. -/
theorem distribute_buys_needed_tight (fuel : Nat) (shares : Pairs)
    (targets : List Target) (current_price min_margin : Rat)
    (rep : DistributionReport) (n : Int)
    (h : distribute fuel shares targets current_price min_margin = some rep)
    (hn : rep.buys_needed = some n) (hpos : 0 < n) :
    (∃ r1, distribute_pass fuel (addPairs shares (convertSingle current_price n))
        targets current_price min_margin = some r1 ∧
        r1.buyables_satisfied = true) ∧
    (∀ rep2, distribute fuel (addPairs shares (convertSingle current_price n))
        targets current_price min_margin = some rep2 →
      rep2.buyables_satisfied = true) ∧
    (∃ r2, distribute_pass fuel
        (addPairs shares (convertSingle current_price (n - 1)))
        targets current_price min_margin = some r2 ∧
        r2.buyables_satisfied = false) ∧
    (∀ rep3, distribute fuel
        (addPairs shares (convertSingle current_price (n - 1)))
        targets current_price min_margin = some rep3 →
      rep3.buyables_satisfied = false) := by
  unfold distribute at h
  cases hfirst : distribute_pass fuel shares targets current_price min_margin with
  | none => rw [hfirst] at h; cases h
  | some first_report =>
    rw [hfirst] at h
    dsimp only at h
    by_cases hb : !first_report.buyables_satisfied
    · rw [if_pos hb] at h
      cases hebs : exponential_binary_search
          (buyCallback fuel shares targets current_price min_margin)
          0 (some 32) fuel with
      | none => rw [hebs] at h; cases h
      | some inner =>
        rw [hebs] at h
        cases inner with
        | none => cases h
        | some kk =>
          cases h
          have hn2 : some (kk + 1) = some n := hn
          have hkn : kk = n - 1 := by
            have := Option.some_injective _ hn2
            omega
          subst hkn
          rcases exponential_binary_search_0_32_spec hebs with ⟨htrue, hfalse⟩
          have hn1 : (n - 1) + 1 = n := by omega
          rw [hn1] at hfalse
          unfold buyCallback at hfalse htrue
          rcases Option.map_eq_some'.mp hfalse with ⟨r1, hr1, hmap1⟩
          rcases Option.map_eq_some'.mp htrue with ⟨r2, hr2, hmap2⟩
          have hb1 : r1.buyables_satisfied = true := by simpa using hmap1
          have hb2 : r2.buyables_satisfied = false := by simpa using hmap2
          refine ⟨⟨r1, hr1, hb1⟩, ?_, ⟨r2, hr2, hb2⟩, ?_⟩
          · intro rep2 hrep2
            rcases distribute_buyables_eq_first_pass hrep2 with ⟨f1, hf1, hfb⟩
            have heq : f1 = r1 := Option.some_injective _ (hf1.symm.trans hr1)
            rw [hfb, heq]
            exact hb1
          · intro rep3 hrep3
            rcases distribute_buyables_eq_first_pass hrep3 with ⟨f2, hf2, hfb⟩
            have heq : f2 = r2 := Option.some_injective _ (hf2.symm.trans hr2)
            rw [hfb, heq]
            exact hb2
    · rw [if_neg hb] at h
      exfalso
      by_cases hs : first_report.all_satisfied = true ∧
          decide (0 < totalQty first_report.unbound_shares) = true
      · rw [if_pos (by simp [hs.1, hs.2])] at h
        cases hbs : binary_search
            (sellCallback fuel shares targets current_price min_margin)
            0 (totalQty shares) with
        | none => rw [hbs] at h; cases h
        | some inner =>
          rw [hbs] at h
          cases inner with
          | none => cases h
          | some n_sell =>
            dsimp only at h
            by_cases hz : n_sell = 0
            · rw [if_pos hz] at h
              cases h
              rw [distribute_pass_buys_none hfirst] at hn
              cases hn
            · rw [if_neg hz] at h
              cases hbot : bottomPairs shares n_sell with
              | none => rw [hbot] at h; cases h
              | some held_out =>
                rw [hbot] at h
                dsimp only at h
                cases hsub : subPairs shares held_out with
                | error e => rw [hsub] at h; cases h
                | ok retained =>
                  rw [hsub] at h
                  dsimp only at h
                  cases hpass : distribute_pass fuel retained targets
                      current_price min_margin with
                  | none => rw [hpass] at h; cases h
                  | some report =>
                    rw [hpass] at h
                    cases h
                    have hn2 : report.buys_needed = some n := hn
                    rw [distribute_pass_buys_none hpass] at hn2
                    cases hn2
      · rw [if_neg (by
          intro hcontra
          rcases Bool.and_eq_true_iff.mp hcontra with ⟨ha, hb2⟩
          exact hs ⟨ha, hb2⟩)] at h
        cases h
        rw [distribute_pass_buys_none hfirst] at hn
        cases hn

/-- Witness for claim C2: a concrete run of `distribute` reporting
`buys_needed = 1`, where the distribution pass on the ledger plus one share
is satisfied and on the unchanged ledger is not. -/
theorem distribute_buys_needed_tight_witness :
    ∃ rep,
      distribute 40 [] [⟨"t", 1, 3, 5, 0⟩] 1 1 = some rep ∧
      rep.buys_needed = some 1 ∧
      (∃ r1, distribute_pass 40 (addPairs [] (convertSingle 1 1))
          [⟨"t", 1, 3, 5, 0⟩] 1 1 = some r1 ∧ r1.buyables_satisfied = true) ∧
      (∀ rep2, distribute 40 (addPairs [] (convertSingle 1 1))
          [⟨"t", 1, 3, 5, 0⟩] 1 1 = some rep2 →
        rep2.buyables_satisfied = true) ∧
      (∃ r2, distribute_pass 40 (addPairs [] (convertSingle 1 (1 - 1)))
          [⟨"t", 1, 3, 5, 0⟩] 1 1 = some r2 ∧ r2.buyables_satisfied = false) ∧
      (∀ rep3, distribute 40 (addPairs [] (convertSingle 1 (1 - 1)))
          [⟨"t", 1, 3, 5, 0⟩] 1 1 = some rep3 →
        rep3.buyables_satisfied = false) := by
  have hd : distribute 40 [] [⟨"t", 1, 3, 5, 0⟩] 1 1 =
      some ⟨[(⟨"t", 1, 3, 5, 0⟩, ⟨[], 0⟩)], [], false, false, some 1⟩ := by
    with_unfolding_all decide
  refine ⟨_, hd, rfl, ?_⟩
  exact distribute_buys_needed_tight 40 [] [⟨"t", 1, 3, 5, 0⟩] 1 1 _ 1 hd rfl
    (by norm_num)

/-! ### Claim C3: lot-selection policy of the single pass -/

/-- Claim C3 as stated (its "hold aside and restore" clause): lots priced
below a target's `min_buy_price` are only skipped and restored to the pool,
so no lot assigned to a target may be priced below that target's
`min_buy_price`. -/
def passSkipsBelowMinBuy : Prop :=
  ∀ (fuel : Nat) (S : Pairs) (T : List Target) (cp m : Rat)
    (rep : DistributionReport),
    distribute_pass fuel S T cp m = some rep →
    ∀ ta ∈ rep.target_to_assignment, ∀ p ∈ ta.2.shares,
      ta.1.min_buy_price ≤ p.1

/-- Counterexample to claim C3: with a single lot at price 5 and a target
with `min_buy_price = 40 > 5`... here `min_buy_price = 10`: the pass does not
hold the below-minimum lot aside; its best-alternative scan assigns it. -/
theorem passSkipsBelowMinBuy_counterexample : ¬ passSkipsBelowMinBuy := by
  intro hclaim
  have hrun : distribute_pass 10 [(5, 1)] [⟨"t3", 35, 48, 47, 10⟩] 40 1 =
      some ⟨[(⟨"t3", 35, 48, 47, 10⟩, ⟨[(5, 1)], 38⟩)], [], true, true, none⟩ := by
    with_unfolding_all decide
  have h5 := hclaim 10 _ _ _ _ _ hrun (⟨"t3", 35, 48, 47, 10⟩, ⟨[(5, 1)], 38⟩)
    (by simp) (5, 1) (by simp)
  norm_num at h5

/-- The score the alternative scan computes for a candidate lot. -/
def alt_score (t : Target) (ap : Pair) : Rat :=
  if t.min_buy_price ≤ ap.1 then t.sell_price - max ap.1 t.min_buy_price
  else t.sell_price - max ap.1 t.min_buy_price - (t.min_buy_price - ap.1)

/-- The lots the alternative scan actually considers: the prefix of the
remaining (price-ascending) lots up to the first lot at or above
`min_buy_price` (inclusive), stopping before any lot above `max_buy_price`. -/
def alt_candidates (t : Target) : Pairs → Pairs
  | [] => []
  | ap :: rest =>
    if t.max_buy_price < ap.1 then []
    else if t.min_buy_price ≤ ap.1 then [ap]
    else ap :: alt_candidates t rest

theorem alt_candidates_cons (t : Target) (ap : Pair) (rest : Pairs) :
    alt_candidates t (ap :: rest)
      = if t.max_buy_price < ap.1 then []
        else if t.min_buy_price ≤ ap.1 then [ap]
        else ap :: alt_candidates t rest := rfl

theorem choose_alternative_some (t : Target) :
    ∀ (ps : Pairs) (c : Option Pair) (b : Option Rat) (cx : Pair),
      c = some cx → ∃ x, choose_alternative t ps c b = some x := by
  intro ps
  induction ps with
  | nil =>
    intro c b cx hc
    exact ⟨cx, hc⟩
  | cons ap rest ih =>
    intro c b cx hc
    unfold choose_alternative
    by_cases h1 : t.max_buy_price < ap.1
    · rw [if_pos h1]
      exact ⟨cx, hc⟩
    · rw [if_neg h1]
      dsimp only
      by_cases h2 : t.min_buy_price ≤ ap.1
      · rw [if_pos h2]
        rcases hbv : (match b with
            | none => true
            | some bv => decide (bv < (if t.min_buy_price ≤ ap.1 then
                t.sell_price - max ap.1 t.min_buy_price
              else t.sell_price - max ap.1 t.min_buy_price -
                (t.min_buy_price - ap.1)))) with _ | _
        · simp only [hbv, Bool.false_eq_true, if_false]
          exact ⟨cx, hc⟩
        · simp only [hbv, if_true]
          exact ⟨ap, rfl⟩
      · rw [if_neg h2]
        rcases hbv : (match b with
            | none => true
            | some bv => decide (bv < (if t.min_buy_price ≤ ap.1 then
                t.sell_price - max ap.1 t.min_buy_price
              else t.sell_price - max ap.1 t.min_buy_price -
                (t.min_buy_price - ap.1)))) with _ | _
        · simp only [hbv, Bool.false_eq_true, if_false]
          exact ih c _ cx hc
        · simp only [hbv, if_true]
          exact ih (some ap) _ ap rfl

theorem choose_alternative_spec (t : Target) :
    ∀ (ps : Pairs) (c : Option Pair) (b : Option Rat),
      ((c = none ∧ b = none) ∨
        (∃ cx, c = some cx ∧ b = some (alt_score t cx))) →
      ∀ x, choose_alternative t ps c b = some x →
        (x ∈ alt_candidates t ps ∨ c = some x) ∧
        (∀ y ∈ alt_candidates t ps, alt_score t y ≤ alt_score t x) ∧
        (∀ bx, b = some bx → bx ≤ alt_score t x) := by
  intro ps
  induction ps with
  | nil =>
    intro c b hstate x h
    refine ⟨Or.inr h, ?_, ?_⟩
    · intro y hy
      simp [alt_candidates] at hy
    · intro bx hbx
      rcases hstate with ⟨hc, hb⟩ | ⟨cx, hc, hb⟩
      · subst hb; cases hbx
      · subst hc; subst hb
        have h2 : cx = x := Option.some_injective _ h
        have h3 : bx = alt_score t cx := (Option.some_injective _ hbx).symm
        rw [h3, h2]
  | cons ap rest ih =>
    intro c b hstate x h
    unfold choose_alternative at h
    by_cases h1 : t.max_buy_price < ap.1
    · rw [if_pos h1] at h
      have hcand : alt_candidates t (ap :: rest) = [] := by
        rw [alt_candidates_cons, if_pos h1]
      refine ⟨Or.inr h, ?_, ?_⟩
      · intro y hy
        rw [hcand] at hy
        cases hy
      · intro bx hbx
        rcases hstate with ⟨hc, hb⟩ | ⟨cx, hc, hb⟩
        · subst hb; cases hbx
        · subst hc; subst hb
          have h2 : cx = x := Option.some_injective _ h
          have h3 : bx = alt_score t cx := (Option.some_injective _ hbx).symm
          rw [h3, h2]
    · rw [if_neg h1] at h
      dsimp only at h
      have hscore : (if t.min_buy_price ≤ ap.1 then
          t.sell_price - max ap.1 t.min_buy_price
        else t.sell_price - max ap.1 t.min_buy_price -
          (t.min_buy_price - ap.1)) = alt_score t ap := rfl
      rw [hscore] at h
      rcases hstate with ⟨hc, hb⟩ | ⟨cx, hc, hb⟩
      -- state A: no candidate chosen yet; the scan always prefers `ap`.
      · subst hc; subst hb
        simp only [if_true] at h
        by_cases h2 : t.min_buy_price ≤ ap.1
        · rw [if_pos h2] at h
          have hcand : alt_candidates t (ap :: rest) = [ap] := by
            rw [alt_candidates_cons, if_neg h1, if_pos h2]
          have hx : ap = x := Option.some_injective _ h
          subst hx
          refine ⟨Or.inl (by rw [hcand]; simp), ?_, ?_⟩
          · intro y hy
            rw [hcand] at hy
            rcases List.mem_singleton.mp hy with rfl
            exact le_refl _
          · intro bx hbx
            cases hbx
        · rw [if_neg h2] at h
          have hcand : alt_candidates t (ap :: rest)
              = ap :: alt_candidates t rest := by
            rw [alt_candidates_cons, if_neg h1, if_neg h2]
          rcases ih (some ap) (some (alt_score t ap))
            (Or.inr ⟨ap, rfl, rfl⟩) x h with ⟨hmem, hmax, hbest⟩
          have hap_le : alt_score t ap ≤ alt_score t x := hbest _ rfl
          refine ⟨?_, ?_, ?_⟩
          · rcases hmem with hin | hsome
            · exact Or.inl (by rw [hcand]; exact List.mem_cons_of_mem ap hin)
            · have h3 : ap = x := Option.some_injective _ hsome
              exact Or.inl (by rw [hcand, h3]; simp)
          · intro y hy
            rw [hcand] at hy
            rcases List.mem_cons.mp hy with rfl | hin
            · exact hap_le
            · exact hmax y hin
          · intro bx hbx
            cases hbx
      -- state B: running best `cx` with score `alt_score t cx`.
      · subst hc; subst hb
        by_cases hbetter : alt_score t cx < alt_score t ap
        · simp only [decide_eq_true hbetter, if_true] at h
          by_cases h2 : t.min_buy_price ≤ ap.1
          · rw [if_pos h2] at h
            have hcand : alt_candidates t (ap :: rest) = [ap] := by
              rw [alt_candidates_cons, if_neg h1, if_pos h2]
            have hx : ap = x := Option.some_injective _ h
            subst hx
            refine ⟨Or.inl (by rw [hcand]; simp), ?_, ?_⟩
            · intro y hy
              rw [hcand] at hy
              rcases List.mem_singleton.mp hy with rfl
              exact le_refl _
            · intro bx hbx
              have h3 : bx = alt_score t cx := (Option.some_injective _ hbx).symm
              rw [h3]
              exact le_of_lt hbetter
          · rw [if_neg h2] at h
            have hcand : alt_candidates t (ap :: rest)
                = ap :: alt_candidates t rest := by
              rw [alt_candidates_cons, if_neg h1, if_neg h2]
            rcases ih (some ap) (some (alt_score t ap))
              (Or.inr ⟨ap, rfl, rfl⟩) x h with ⟨hmem, hmax, hbest⟩
            have hap_le : alt_score t ap ≤ alt_score t x := hbest _ rfl
            refine ⟨?_, ?_, ?_⟩
            · rcases hmem with hin | hsome
              · exact Or.inl (by rw [hcand]; exact List.mem_cons_of_mem ap hin)
              · have h3 : ap = x := Option.some_injective _ hsome
                exact Or.inl (by rw [hcand, h3]; simp)
            · intro y hy
              rw [hcand] at hy
              rcases List.mem_cons.mp hy with rfl | hin
              · exact hap_le
              · exact hmax y hin
            · intro bx hbx
              have h3 : bx = alt_score t cx := (Option.some_injective _ hbx).symm
              rw [h3]
              exact le_trans (le_of_lt hbetter) hap_le
        · simp only [decide_eq_false hbetter, Bool.false_eq_true, if_false] at h
          by_cases h2 : t.min_buy_price ≤ ap.1
          · rw [if_pos h2] at h
            have hcand : alt_candidates t (ap :: rest) = [ap] := by
              rw [alt_candidates_cons, if_neg h1, if_pos h2]
            have hx : cx = x := Option.some_injective _ h
            subst hx
            refine ⟨Or.inr rfl, ?_, ?_⟩
            · intro y hy
              rw [hcand] at hy
              rcases List.mem_singleton.mp hy with rfl
              exact le_of_not_lt hbetter
            · intro bx hbx
              have h3 : bx = alt_score t cx := (Option.some_injective _ hbx).symm
              rw [h3]
          · rw [if_neg h2] at h
            have hcand : alt_candidates t (ap :: rest)
                = ap :: alt_candidates t rest := by
              rw [alt_candidates_cons, if_neg h1, if_neg h2]
            rcases ih (some cx) (some (alt_score t cx))
              (Or.inr ⟨cx, rfl, rfl⟩) x h with ⟨hmem, hmax, hbest⟩
            have hcx_le : alt_score t cx ≤ alt_score t x := hbest _ rfl
            refine ⟨?_, ?_, ?_⟩
            · rcases hmem with hin | hsome
              · exact Or.inl (by rw [hcand]; exact List.mem_cons_of_mem ap hin)
              · exact Or.inr hsome
            · intro y hy
              rw [hcand] at hy
              rcases List.mem_cons.mp hy with rfl | hin
              · exact le_trans (le_of_not_lt hbetter) hcx_le
              · exact hmax y hin
            · intro bx hbx
              have h3 : bx = alt_score t cx := (Option.some_injective _ hbx).symm
              rw [h3]
              exact hcx_le

/-- Claim C3 amended: within the eligible window the pass does consume the
cheapest lot — when the cheapest remaining lot is at or above the target's
`min_buy_price`, `step_choice` takes exactly that lot; but when the cheapest
remaining lot is below `min_buy_price`, the pass does not hold it aside:
it takes the best-scoring lot among the prefix of lots up to and including
the first lot at or above `min_buy_price` (which may be a below-minimum
lot, as the counterexample shows). -/
theorem step_choice_policy (t : Target) (pair : Pair) (rest : Pairs) :
    (¬ pair.1 < t.min_buy_price → step_choice t (pair :: rest) = some pair) ∧
    (¬ t.max_buy_price < pair.1 → pair.1 < t.min_buy_price →
      ∃ chosen, step_choice t (pair :: rest) = some chosen ∧
        chosen ∈ alt_candidates t (pair :: rest) ∧
        ∀ y ∈ alt_candidates t (pair :: rest),
          alt_score t y ≤ alt_score t chosen) := by
  constructor
  · intro h
    unfold step_choice
    dsimp only
    rw [if_neg h]
  · intro hmax hmin
    have hsc : step_choice t (pair :: rest)
        = choose_alternative t (pair :: rest) none none := by
      unfold step_choice
      dsimp only
      rw [if_pos hmin]
    have hsome : ∃ x, choose_alternative t (pair :: rest) none none = some x := by
      unfold choose_alternative
      rw [if_neg hmax]
      dsimp only
      rw [if_neg (not_le.mpr hmin)]
      simp only [if_true]
      exact choose_alternative_some t rest (some pair) _ pair rfl
    rcases hsome with ⟨x, hx⟩
    rcases choose_alternative_spec t (pair :: rest) none none
      (Or.inl ⟨rfl, rfl⟩) x hx with ⟨hmem, hmaxi, _⟩
    refine ⟨x, by rw [hsc]; exact hx, ?_, hmaxi⟩
    rcases hmem with hin | hsome2
    · exact hin
    · cases hsome2

/-- Witness for the amended claim C3 at concrete inputs: with the cheapest
lot inside the window the head lot is chosen; with the cheapest lot below
the minimum, the best-scoring candidate is chosen. -/
theorem step_choice_policy_witness :
    (¬ ((3 : Rat), (2 : Int)).1 < (⟨"t", 35, 48, 47, 2⟩ : Target).min_buy_price
      ∧ step_choice ⟨"t", 35, 48, 47, 2⟩ [((3 : Rat), (2 : Int)), (40, 5)]
          = some ((3 : Rat), (2 : Int))) ∧
    (¬ (⟨"t", 35, 48, 47, 10⟩ : Target).max_buy_price < ((5 : Rat), (1 : Int)).1
      ∧ ((5 : Rat), (1 : Int)).1 < (⟨"t", 35, 48, 47, 10⟩ : Target).min_buy_price
      ∧ ∃ chosen, step_choice ⟨"t", 35, 48, 47, 10⟩
            [((5 : Rat), (1 : Int)), (40, 5)] = some chosen ∧
          chosen ∈ alt_candidates ⟨"t", 35, 48, 47, 10⟩
            [((5 : Rat), (1 : Int)), (40, 5)] ∧
          ∀ y ∈ alt_candidates ⟨"t", 35, 48, 47, 10⟩
              [((5 : Rat), (1 : Int)), (40, 5)],
            alt_score ⟨"t", 35, 48, 47, 10⟩ y
              ≤ alt_score ⟨"t", 35, 48, 47, 10⟩ chosen) := by
  constructor
  · refine ⟨by with_unfolding_all decide, ?_⟩
    exact (step_choice_policy ⟨"t", 35, 48, 47, 2⟩ ((3 : Rat), (2 : Int))
      [(40, 5)]).1 (by with_unfolding_all decide)
  · refine ⟨by with_unfolding_all decide, by with_unfolding_all decide, ?_⟩
    exact (step_choice_policy ⟨"t", 35, 48, 47, 10⟩ ((5 : Rat), (1 : Int))
      [(40, 5)]).2 (by with_unfolding_all decide) (by with_unfolding_all decide)

/-! ### Claim C5: failure conditions of `Shares.__sub__` -/

theorem qtyAt_eq_zero_of_not_mem {ps : Pairs} {price : Rat}
    (h : price ∉ ps.map Prod.fst) : qtyAt ps price = 0 := by
  induction ps with
  | nil => rfl
  | cons p rest ih =>
    rw [qtyAt_cons]
    have hne : p.1 ≠ price := by
      intro hc
      exact h (by rw [← hc]; simp)
    rw [if_neg hne, ih (by intro hc; exact h (by simp [hc]))]
    ring

theorem qtyAt_of_mem_nodup {ps : Pairs} {p : Pair}
    (hnod : (ps.map Prod.fst).Nodup) (hmem : p ∈ ps) :
    qtyAt ps p.1 = p.2 := by
  induction ps with
  | nil => cases hmem
  | cons q rest ih =>
    rw [List.map_cons, List.nodup_cons] at hnod
    rcases List.mem_cons.mp hmem with rfl | hin
    · rw [qtyAt_cons, if_pos rfl,
        qtyAt_eq_zero_of_not_mem hnod.1]
      ring
    · rw [qtyAt_cons]
      have hne : q.1 ≠ p.1 := by
        intro hc
        exact hnod.1 (by rw [hc]; exact List.mem_map_of_mem Prod.fst hin)
      rw [if_neg hne, ih hnod.2 hin]
      ring

/-- Characterization of when one `get_pair`-and-decrement step fails, on a
well-formed (quantized, duplicate-free) ledger. -/
theorem subQty_error_iff {ps : Pairs} {price : Rat} {q : Int}
    (hq : QuantizedAll ps) (hnod : (ps.map Prod.fst).Nodup)
    (hp : Quantized price) :
    (∃ e, subQty ps price q = .error e) ↔
      (price ∉ ps.map Prod.fst ∨ qtyAt ps price < q) := by
  induction ps with
  | nil =>
    simp [subQty]
  | cons p rest ih =>
    rw [List.map_cons, List.nodup_cons] at hnod
    unfold subQty
    by_cases htol : |p.1 - price| < 1/200
    · have hpp : p.1 = price := quantized_close_eq (hq p (by simp)) hp htol
      rw [if_pos htol]
      have hmem : price ∈ (p :: rest).map Prod.fst := by
        rw [← hpp]; simp
      have hrest0 : qtyAt rest price = 0 := by
        apply qtyAt_eq_zero_of_not_mem
        rw [← hpp]
        exact hnod.1
      have hqty : qtyAt (p :: rest) price = p.2 := by
        rw [qtyAt_cons, if_pos hpp, hrest0]
        ring
      by_cases hlt : p.2 < q
      · rw [if_pos hlt]
        constructor
        · intro _
          right
          rw [hqty]
          exact hlt
        · intro _
          exact ⟨.insufficient p.2 q, rfl⟩
      · rw [if_neg hlt]
        constructor
        · intro ⟨e, he⟩
          cases he
        · intro hbad
          rcases hbad with hnm | hsmall
          · exact absurd hmem hnm
          · rw [hqty] at hsmall
            exact absurd hsmall hlt
    · rw [if_neg htol]
      have hne : p.1 ≠ price := by
        intro hc
        rw [hc] at htol
        simp at htol
      have hq2 : QuantizedAll rest := fun x hx => hq x (List.mem_cons_of_mem p hx)
      have hlift : qtyAt (p :: rest) price = qtyAt rest price := by
        rw [qtyAt_cons, if_neg hne]
        ring
      have hmemlift : price ∉ (p :: rest).map Prod.fst ↔
          price ∉ rest.map Prod.fst := by
        simp only [List.map_cons, List.mem_cons]
        constructor
        · intro h hc
          exact h (Or.inr hc)
        · intro h hc
          rcases hc with hc | hc
          · exact hne hc.symm
          · exact h hc
      rw [hlift, hmemlift]
      constructor
      · intro ⟨e, he⟩
        cases hrec : subQty rest price q with
        | error e2 =>
          exact (ih hq2 hnod.2).mp ⟨e2, hrec⟩
        | ok ps2 => rw [hrec] at he; cases he
      · intro hbad
        rcases (ih hq2 hnod.2).mpr hbad with ⟨e, he⟩
        rw [he]
        exact ⟨e, rfl⟩

theorem subQty_ok_nonneg {ps ps2 : Pairs} {price : Rat} {q : Int}
    (hpos : ∀ p ∈ ps, 0 ≤ p.2) (h : subQty ps price q = .ok ps2) :
    ∀ p ∈ ps2, 0 ≤ p.2 := by
  induction ps generalizing ps2 with
  | nil => cases h
  | cons p rest ih =>
    unfold subQty at h
    by_cases htol : |p.1 - price| < 1/200
    · rw [if_pos htol] at h
      by_cases hlt : p.2 < q
      · rw [if_pos hlt] at h; cases h
      · rw [if_neg hlt] at h
        cases h
        intro x hx
        rcases List.mem_cons.mp hx with rfl | hin
        · dsimp only
          omega
        · exact hpos x (List.mem_cons_of_mem p hin)
    · rw [if_neg htol] at h
      cases hrec : subQty rest price q with
      | error e => rw [hrec] at h; cases h
      | ok ps3 =>
        rw [hrec] at h
        cases h
        intro x hx
        rcases List.mem_cons.mp hx with rfl | hin
        · exact hpos x (by simp)
        · exact ih (fun y hy => hpos y (List.mem_cons_of_mem p hy)) hrec x hin

theorem prune_zeros_ok_of_nonneg {ps : Pairs} (hpos : ∀ p ∈ ps, 0 ≤ p.2) :
    ∃ r, prune_zeros ps = .ok r := by
  induction ps with
  | nil => exact ⟨[], rfl⟩
  | cons p rest ih =>
    unfold prune_zeros
    rw [if_neg (by
      have := hpos p (by simp)
      omega)]
    rcases ih (fun y hy => hpos y (List.mem_cons_of_mem p hy)) with ⟨r, hr⟩
    by_cases hp : 0 < p.2
    · rw [if_pos hp, hr]
      exact ⟨p :: r, rfl⟩
    · rw [if_neg hp]
      exact ⟨r, hr⟩

theorem subAll_error_iff :
    ∀ (O S : Pairs),
      QuantizedAll S → QuantizedAll O →
      (S.map Prod.fst).Nodup → (O.map Prod.fst).Nodup →
      (∀ p ∈ S, 0 ≤ p.2) → (∀ p ∈ O, 0 < p.2) →
      ((∃ e, subAll S O = .error e) ↔ ∃ p ∈ O, qtyAt S p.1 < p.2) := by
  intro O
  induction O with
  | nil =>
    intro S _ _ _ _ _ _
    simp [subAll]
  | cons o os ih =>
    intro S hSq hOq hSnod hOnod hSpos hOpos
    rw [List.map_cons, List.nodup_cons] at hOnod
    have hoq : Quantized o.1 := hOq o (by simp)
    have hosq : QuantizedAll os := fun x hx => hOq x (List.mem_cons_of_mem o hx)
    have hospos : ∀ p ∈ os, 0 < p.2 :=
      fun x hx => hOpos x (List.mem_cons_of_mem o hx)
    unfold subAll
    cases hstep : subQty S o.1 o.2 with
    | error e =>
      constructor
      · intro _
        refine ⟨o, by simp, ?_⟩
        rcases (subQty_error_iff hSq hSnod hoq).mp ⟨e, hstep⟩ with hnm | hlt
        · rw [qtyAt_eq_zero_of_not_mem hnm]
          exact hOpos o (by simp)
        · exact hlt
      · intro _
        exact ⟨e, rfl⟩
    | ok mid =>
      have hmid_fst := subQty_map_fst hstep
      have hmidq : QuantizedAll mid := quantizedAll_of_map_fst_eq hmid_fst hSq
      have hmidnod : (mid.map Prod.fst).Nodup := by rw [hmid_fst]; exact hSnod
      have hmidpos : ∀ p ∈ mid, 0 ≤ p.2 := subQty_ok_nonneg hSpos hstep
      have hnoerr : ¬ (o.1 ∉ S.map Prod.fst ∨ qtyAt S o.1 < o.2) := by
        intro hc
        rcases (subQty_error_iff hSq hSnod hoq).mpr hc with ⟨e, he⟩
        rw [he] at hstep
        cases hstep
      push_neg at hnoerr
      have hqty_mid : ∀ p ∈ os, qtyAt mid p.1 = qtyAt S p.1 := by
        intro p hp
        have hne : o.1 ≠ p.1 := by
          intro hc
          exact hOnod.1 (by rw [hc]; exact List.mem_map_of_mem Prod.fst hp)
        rw [subQty_qtyAt hSq hoq hstep p.1, if_neg hne]
        ring
      rw [ih mid hmidq hosq hmidnod hOnod.2 hmidpos hospos]
      constructor
      · intro ⟨p, hp, hlt⟩
        refine ⟨p, List.mem_cons_of_mem o hp, ?_⟩
        rw [← hqty_mid p hp]
        exact hlt
      · intro ⟨p, hp, hlt⟩
        rcases List.mem_cons.mp hp with rfl | hin
        · exact absurd hlt (by omega)
        · refine ⟨p, hin, ?_⟩
          rw [hqty_mid p hin]
          exact hlt

theorem subAll_ok_nonneg {S O mid : Pairs}
    (hSpos : ∀ p ∈ S, 0 ≤ p.2) (h : subAll S O = .ok mid) :
    ∀ p ∈ mid, 0 ≤ p.2 := by
  induction O generalizing S with
  | nil =>
    cases h
    exact hSpos
  | cons o os ih =>
    unfold subAll at h
    cases hstep : subQty S o.1 o.2 with
    | error e => rw [hstep] at h; cases h
    | ok mid2 =>
      rw [hstep] at h
      exact ih (subQty_ok_nonneg hSpos hstep) h

theorem subQty_error_missing {ps : Pairs} {price pr : Rat} {q : Int}
    (h : subQty ps price q = .error (.missingPrice pr)) :
    pr = price ∧ ∀ p ∈ ps, ¬ |p.1 - price| < 1/200 := by
  induction ps with
  | nil =>
    unfold subQty at h
    cases h
    exact ⟨rfl, by intro p hp; cases hp⟩
  | cons p rest ih =>
    unfold subQty at h
    by_cases htol : |p.1 - price| < 1/200
    · rw [if_pos htol] at h
      by_cases hlt : p.2 < q
      · rw [if_pos hlt] at h; cases h
      · rw [if_neg hlt] at h; cases h
    · rw [if_neg htol] at h
      cases hrec : subQty rest price q with
      | error e =>
        rw [hrec] at h
        cases h
        rcases ih hrec with ⟨hpr, hall⟩
        refine ⟨hpr, ?_⟩
        intro x hx
        rcases List.mem_cons.mp hx with rfl | hin
        · exact htol
        · exact hall x hin
      | ok ps2 => rw [hrec] at h; cases h

theorem subQty_error_shape {ps : Pairs} {price : Rat} {q : Int} {e : SubErr}
    (h : subQty ps price q = .error e) :
    (∃ pr, e = .missingPrice pr) ∨ ∃ a b, e = .insufficient a b := by
  induction ps with
  | nil =>
    unfold subQty at h
    cases h
    exact Or.inl ⟨price, rfl⟩
  | cons p rest ih =>
    unfold subQty at h
    by_cases htol : |p.1 - price| < 1/200
    · rw [if_pos htol] at h
      by_cases hlt : p.2 < q
      · rw [if_pos hlt] at h
        cases h
        exact Or.inr ⟨p.2, q, rfl⟩
      · rw [if_neg hlt] at h; cases h
    · rw [if_neg htol] at h
      cases hrec : subQty rest price q with
      | error e2 =>
        rw [hrec] at h
        cases h
        exact ih hrec
      | ok ps2 => rw [hrec] at h; cases h

theorem subAll_error_missing {S O : Pairs} {pr : Rat}
    (hSq : QuantizedAll S) (hOq : QuantizedAll O)
    (h : subAll S O = .error (.missingPrice pr)) :
    pr ∉ S.map Prod.fst := by
  induction O generalizing S with
  | nil => cases h
  | cons o os ih =>
    unfold subAll at h
    cases hstep : subQty S o.1 o.2 with
    | error e =>
      rw [hstep] at h
      cases h
      rcases subQty_error_missing hstep with ⟨hpr, hall⟩
      subst hpr
      intro hc
      rcases List.mem_map.mp hc with ⟨p, hp, hfst⟩
      exact hall p hp (by rw [hfst]; simp)
    | ok mid =>
      rw [hstep] at h
      have hmid_fst := subQty_map_fst hstep
      have hmidq : QuantizedAll mid := quantizedAll_of_map_fst_eq hmid_fst hSq
      have := ih hmidq (fun x hx => hOq x (List.mem_cons_of_mem o hx)) h
      rw [hmid_fst] at this
      exact this

theorem subAll_error_shape {S O : Pairs} {e : SubErr}
    (h : subAll S O = .error e) :
    (∃ pr, e = .missingPrice pr) ∨ ∃ a b, e = .insufficient a b := by
  induction O generalizing S with
  | nil => cases h
  | cons o os ih =>
    unfold subAll at h
    cases hstep : subQty S o.1 o.2 with
    | error e2 =>
      rw [hstep] at h
      cases h
      exact subQty_error_shape hstep
    | ok mid =>
      rw [hstep] at h
      exact ih h

/-- State-passing form of `Shares.__sub__`, recording the mutation analysis
of the source: the method starts from `result = self.clone()` (a deep copy),
the `existing_pair[1] -= pair[1]` writes and the final `prune_zeros` hit only
that copy, and `self.pairs` is never written, so `self` is returned
unchanged. -/
def subSt (self other : Pairs) : Except SubErr Pairs × Pairs :=
  (subPairs (clone_pairs self) other, self)

/-- Claim C5: on well-formed ledgers, `Shares.__sub__` fails exactly when the
minuend holds fewer shares at some subtrahend price than requested (a missing
price level counting as zero shares, never silently clamped); the raised
error is only ever a missing-price or insufficient-shares error, and a
missing-price error names a price absent from the minuend; on success the
result is the exact multiset difference with every zero-quantity entry
pruned; and the minuend operand is unmodified in both outcomes. -/
theorem sub_error_characterization (S O : Pairs)
    (hSq : QuantizedAll S) (hOq : QuantizedAll O)
    (hSnod : (S.map Prod.fst).Nodup) (hOnod : (O.map Prod.fst).Nodup)
    (hSpos : ∀ p ∈ S, 0 < p.2) (hOpos : ∀ p ∈ O, 0 < p.2) :
    ((∃ e, subPairs S O = .error e) ↔ ∃ p ∈ O, qtyAt S p.1 < p.2) ∧
    (∀ pr, subPairs S O = .error (.missingPrice pr) → pr ∉ S.map Prod.fst) ∧
    (∀ q pr, subPairs S O ≠ .error (.negativeQty q pr)) ∧
    (∀ R, subPairs S O = .ok R →
      (∀ price, qtyAt R price = qtyAt S price - qtyAt O price) ∧
      ∀ p ∈ R, 0 < p.2) ∧
    (subSt S O).2 = S := by
  have hSpos0 : ∀ p ∈ S, 0 ≤ p.2 := fun p hp => le_of_lt (hSpos p hp)
  refine ⟨?_, ?_, ?_, ?_, rfl⟩
  · unfold subPairs
    cases hsa : subAll S O with
    | error e =>
      rw [← subAll_error_iff O S hSq hOq hSnod hOnod hSpos0 hOpos]
      constructor
      · intro _
        exact ⟨e, hsa⟩
      · intro _
        exact ⟨e, rfl⟩
    | ok mid =>
      rcases prune_zeros_ok_of_nonneg (subAll_ok_nonneg hSpos0 hsa) with ⟨r, hr⟩
      dsimp only
      rw [hr]
      constructor
      · intro ⟨e, he⟩
        cases he
      · intro hbad
        rcases (subAll_error_iff O S hSq hOq hSnod hOnod hSpos0 hOpos).mpr hbad
          with ⟨e, he⟩
        rw [he] at hsa
        cases hsa
  · intro pr hpr
    unfold subPairs at hpr
    cases hsa : subAll S O with
    | error e =>
      rw [hsa] at hpr
      dsimp only at hpr
      cases hpr
      exact subAll_error_missing hSq hOq hsa
    | ok mid =>
      rw [hsa] at hpr
      dsimp only at hpr
      rcases prune_zeros_ok_of_nonneg (subAll_ok_nonneg hSpos0 hsa) with ⟨r, hr⟩
      rw [hr] at hpr
      cases hpr
  · intro q pr hc
    unfold subPairs at hc
    cases hsa : subAll S O with
    | error e =>
      rw [hsa] at hc
      dsimp only at hc
      cases hc
      rcases subAll_error_shape hsa with ⟨pr2, hpr2⟩ | ⟨a, b, hab⟩
      · cases hpr2
      · cases hab
    | ok mid =>
      rw [hsa] at hc
      dsimp only at hc
      rcases prune_zeros_ok_of_nonneg (subAll_ok_nonneg hSpos0 hsa) with ⟨r, hr⟩
      rw [hr] at hc
      cases hc
  · intro R hR
    unfold subPairs at hR
    cases hsa : subAll S O with
    | error e =>
      rw [hsa] at hR
      dsimp only at hR
      cases hR
    | ok mid =>
      rw [hsa] at hR
      dsimp only at hR
      constructor
      · intro price
        rcases subAll_qtyAt hSq hOq hsa price with ⟨_, hqty⟩
        rw [prune_zeros_qtyAt hR price, hqty]
      · exact prune_zeros_pos hR

/-- Witness for claim C5 at concrete ledgers: `[(1, 2), (2, 1)] - [(1, 1)]`
succeeds with the exact difference, and the failure condition matches. -/
theorem sub_error_characterization_witness :
    ((∃ e, subPairs [((1 : Rat), 2), (2, 1)] [(1, 1)] = .error e) ↔
      ∃ p ∈ [((1 : Rat), (1 : Int))],
        qtyAt [((1 : Rat), 2), (2, 1)] p.1 < p.2) ∧
    (∀ pr, subPairs [((1 : Rat), 2), (2, 1)] [(1, 1)]
        = .error (.missingPrice pr) →
      pr ∉ ([((1 : Rat), 2), (2, 1)] : Pairs).map Prod.fst) ∧
    (∀ q pr, subPairs [((1 : Rat), 2), (2, 1)] [(1, 1)]
        ≠ .error (.negativeQty q pr)) ∧
    (∀ R, subPairs [((1 : Rat), 2), (2, 1)] [(1, 1)] = .ok R →
      (∀ price, qtyAt R price
        = qtyAt [((1 : Rat), 2), (2, 1)] price - qtyAt [((1 : Rat), 1)] price) ∧
      ∀ p ∈ R, 0 < p.2) ∧
    (subSt [((1 : Rat), 2), (2, 1)] [(1, 1)]).2 = [((1 : Rat), 2), (2, 1)] :=
  sub_error_characterization [((1 : Rat), 2), (2, 1)] [(1, 1)]
    (by with_unfolding_all decide) (by with_unfolding_all decide)
    (by with_unfolding_all decide) (by with_unfolding_all decide)
    (by with_unfolding_all decide) (by with_unfolding_all decide)

/-! ### Claim C6: sortedness invariant under add / subtract / split -/

/-- The canonical ledger invariant: pair prices strictly ascending (which
also rules out duplicate price keys). -/
def SortedStrict (ps : Pairs) : Prop :=
  List.Pairwise (fun a b => a < b) (ps.map Prod.fst)

instance (ps : Pairs) : Decidable (SortedStrict ps) := by
  unfold SortedStrict; infer_instance

theorem sort_pairs_pairwise_le (ps : Pairs) :
    List.Pairwise (fun a b : Rat => a ≤ b) ((sort_pairs ps).map Prod.fst) := by
  have h := stableSort_pairwise pairLe
    (by
      intro a b hab
      simp only [pairLe, decide_eq_true_eq]
      simp only [pairLe, decide_eq_false_iff_not] at hab
      exact le_of_not_le hab)
    (by
      intro a b c hab hbc
      simp only [pairLe, decide_eq_true_eq] at hab hbc ⊢
      exact le_trans hab hbc)
    ps
  rw [List.pairwise_map]
  refine h.imp ?_
  intro a b hab
  simpa [pairLe, decide_eq_true_eq] using hab

theorem pairwise_lt_of_le_nodup {l : List Rat}
    (hle : List.Pairwise (fun a b : Rat => a ≤ b) l) (hnod : l.Nodup) :
    List.Pairwise (fun a b : Rat => a < b) l := by
  induction l with
  | nil => exact List.Pairwise.nil
  | cons a rest ih =>
    rcases List.pairwise_cons.mp hle with ⟨ha, hrest⟩
    rw [List.nodup_cons] at hnod
    refine List.pairwise_cons.mpr ⟨?_, ih hrest hnod.2⟩
    intro b hb
    refine lt_of_le_of_ne (ha b hb) ?_
    intro hc
    exact hnod.1 (hc ▸ hb)

theorem bumpOrAppend_map_fst (eps : Pairs) (np : Pair) :
    (bumpOrAppend eps np).map Prod.fst = eps.map Prod.fst ∨
      ((bumpOrAppend eps np).map Prod.fst = eps.map Prod.fst ++ [np.1] ∧
        np.1 ∉ eps.map Prod.fst) := by
  induction eps with
  | nil =>
    right
    simp [bumpOrAppend]
  | cons ep eps ih =>
    unfold bumpOrAppend
    by_cases h : np.1 = ep.1
    · left
      rw [if_pos h]
      simp
    · rw [if_neg h]
      rcases ih with hsame | ⟨happ, hnm⟩
      · left
        simp [hsame]
      · right
        constructor
        · simp [happ]
        · simp only [List.map_cons, List.mem_cons]
          intro hc
          rcases hc with hc | hc
          · exact h hc
          · exact hnm hc

theorem bumpOrAppend_nodup {eps : Pairs} (np : Pair)
    (h : (eps.map Prod.fst).Nodup) :
    ((bumpOrAppend eps np).map Prod.fst).Nodup := by
  rcases bumpOrAppend_map_fst eps np with hsame | ⟨happ, hnm⟩
  · rw [hsame]; exact h
  · rw [happ]
    rw [List.nodup_append]
    exact ⟨h, List.nodup_singleton _, by
      intro a ha hb
      rcases List.mem_singleton.mp hb with rfl
      exact hnm ha⟩

theorem mergeNoSort_nodup {s : Pairs} (o : Pairs)
    (h : (s.map Prod.fst).Nodup) :
    ((mergeNoSort s o).map Prod.fst).Nodup := by
  induction o generalizing s with
  | nil => exact h
  | cons np nps ih =>
    unfold mergeNoSort at *
    simp only [List.foldl_cons]
    exact ih (bumpOrAppend_nodup np h)

theorem addPairs_sorted {s : Pairs} (o : Pairs)
    (hs : SortedStrict s) : SortedStrict (addPairs s o) := by
  unfold SortedStrict
  have hnod_s : (s.map Prod.fst).Nodup := by
    unfold SortedStrict at hs
    exact hs.imp (fun hab => ne_of_lt hab)
  have hnod : ((mergeNoSort s o).map Prod.fst).Nodup := mergeNoSort_nodup o hnod_s
  have hperm : ((sort_pairs (mergeNoSort s o)).map Prod.fst).Perm
      ((mergeNoSort s o).map Prod.fst) :=
    (stableSort_perm pairLe (mergeNoSort s o)).map Prod.fst
  exact pairwise_lt_of_le_nodup (sort_pairs_pairwise_le (mergeNoSort s o))
    (hperm.nodup_iff.mpr hnod)

theorem subAll_map_fst {s o r : Pairs} (h : subAll s o = .ok r) :
    r.map Prod.fst = s.map Prod.fst := by
  induction o generalizing s with
  | nil => cases h; rfl
  | cons x os ih =>
    unfold subAll at h
    cases hstep : subQty s x.1 x.2 with
    | error e => rw [hstep] at h; cases h
    | ok mid =>
      rw [hstep] at h
      exact (ih h).trans (subQty_map_fst hstep)

theorem sortedStrict_of_map_fst_eq {ps ps2 : Pairs}
    (h : ps2.map Prod.fst = ps.map Prod.fst) (hs : SortedStrict ps) :
    SortedStrict ps2 := by
  unfold SortedStrict at *
  rw [h]
  exact hs

theorem sortedStrict_sublist {ps ps2 : Pairs} (h : ps2.Sublist ps)
    (hs : SortedStrict ps) : SortedStrict ps2 :=
  List.Pairwise.sublist (h.map Prod.fst) hs

theorem subPairs_sorted {s o r : Pairs} (h : subPairs s o = .ok r)
    (hs : SortedStrict s) : SortedStrict r := by
  unfold subPairs at h
  cases hsa : subAll s o with
  | error e => rw [hsa] at h; cases h
  | ok mid =>
    rw [hsa] at h
    exact sortedStrict_sublist (prune_zeros_sublist h)
      (sortedStrict_of_map_fst_eq (subAll_map_fst hsa) hs)

theorem asSplitBucket_append (u : Rat) (ps : Pairs) :
    (asSplitBucket u ps).1 ++ (asSplitBucket u ps).2 = ps := by
  induction ps with
  | nil => rfl
  | cons p rest ih =>
    unfold asSplitBucket
    by_cases h : u < p.1
    · rw [if_pos h]
      rfl
    · rw [if_neg h]
      cases hsb : asSplitBucket u rest with
      | mk g r =>
        rw [hsb] at ih
        dsimp only at ih ⊢
        rw [List.cons_append, ih]

theorem asSplitGroups_sublist :
    ∀ (qs : List Rat) (ps g : Pairs), g ∈ asSplitGroups ps qs → g.Sublist ps := by
  intro qs
  induction qs with
  | nil =>
    intro ps g hg
    unfold asSplitGroups at hg
    rcases List.mem_singleton.mp hg with rfl
    exact List.Sublist.refl _
  | cons u us ih =>
    intro ps g hg
    unfold asSplitGroups at hg
    cases hsb : asSplitBucket u ps with
    | mk gg rr =>
      rw [hsb] at hg
      dsimp only at hg
      have happ := asSplitBucket_append u ps
      rw [hsb] at happ
      dsimp only at happ
      rcases List.mem_cons.mp hg with rfl | hin
      · have h2 : g.Sublist (g ++ rr) := List.sublist_append_left _ _
        rw [happ] at h2
        exact h2
      · have h2 : rr.Sublist (gg ++ rr) := List.sublist_append_right _ _
        rw [happ] at h2
        exact (ih rr g hin).trans h2

theorem as_split_sorted {ps : Pairs} {levels : List Rat} {g : Pairs}
    (hg : g ∈ as_split ps levels) (hs : SortedStrict ps) : SortedStrict g := by
  unfold as_split at hg
  by_cases h : levels.isEmpty
  · rw [if_pos h] at hg
    rcases List.mem_singleton.mp hg with rfl
    exact hs
  · rw [if_neg h] at hg
    exact sortedStrict_sublist (asSplitGroups_sublist _ ps g hg) hs

/-- An arbitrary sequence of the three ledger-mutating operations:
`Shares.__add__` / `Shares.__sub__` (with a raw operand put through
`convert_to_pairs`) and `Shares.as_split` (taking one of the returned
groups). -/
inductive LedgerOp where
  | addOp (operand : List (Rat × Int))
  | subOp (operand : List (Rat × Int))
  | splitOp (price_levels : List Rat) (idx : Nat)

/-- Apply one ledger operation; `none` models a raised exception or an
out-of-range group index. -/
def apply_op (ps : Pairs) : LedgerOp → Option Pairs
  | .addOp o => some (addPairs ps (convertList o))
  | .subOp o =>
    match subPairs ps (convertList o) with
    | .ok r => some r
    | .error _ => none
  | .splitOp levels i => (as_split ps levels).get? i

/-- Apply a sequence of ledger operations left to right. -/
def apply_ops : Pairs → List LedgerOp → Option Pairs
  | ps, [] => some ps
  | ps, op :: ops =>
    match apply_op ps op with
    | none => none
    | some ps2 => apply_ops ps2 ops

theorem apply_op_sorted {ps ps2 : Pairs} {op : LedgerOp}
    (h : apply_op ps op = some ps2) (hs : SortedStrict ps) :
    SortedStrict ps2 := by
  cases op with
  | addOp o =>
    cases h
    exact addPairs_sorted (convertList o) hs
  | subOp o =>
    unfold apply_op at h
    dsimp only at h
    cases hsub : subPairs ps (convertList o) with
    | error e => rw [hsub] at h; cases h
    | ok r =>
      rw [hsub] at h
      cases h
      exact subPairs_sorted hsub hs
  | splitOp levels i =>
    unfold apply_op at h
    dsimp only at h
    exact as_split_sorted (List.get?_mem h) hs

/-- Claim C6 (sortedness invariant): starting from a well-formed ledger,
every ledger produced by any sequence of add / subtract / split operations
has its pair list strictly ascending by price, with no duplicate price keys
(addition merges same-price lots instead of duplicating them). -/
theorem ledger_ops_sorted (S : Pairs) (ops : List LedgerOp) (U : Pairs)
    (hS : SortedStrict S) (h : apply_ops S ops = some U) : SortedStrict U := by
  induction ops generalizing S with
  | nil =>
    cases h
    exact hS
  | cons op ops ih =>
    unfold apply_ops at h
    cases hop : apply_op S op with
    | none => rw [hop] at h; cases h
    | some mid =>
      rw [hop] at h
      exact ih mid (apply_op_sorted hop hS) h

/-- Witness for claim C6: a concrete add / subtract / split sequence keeps
the ledger strictly sorted. -/
theorem ledger_ops_sorted_witness :
    ∃ U, apply_ops [((1 : Rat), 1), (2, 2)]
        [.addOp [((3 : Rat)/2, 3), (2, 1)], .subOp [((2 : Rat), 2)],
          .splitOp [(17 : Rat)/10] 0] = some U ∧ SortedStrict U := by
  cases hd : apply_ops [((1 : Rat), 1), (2, 2)]
      [.addOp [((3 : Rat)/2, 3), (2, 1)], .subOp [((2 : Rat), 2)],
        .splitOp [(17 : Rat)/10] 0] with
  | none => exact absurd hd (by with_unfolding_all decide)
  | some U =>
    exact ⟨U, rfl, ledger_ops_sorted _ _ U (by with_unfolding_all decide) hd⟩

/-! ### Claim C7: monotonicity of `compute_profit` -/

theorem per_share_profit_mono_sell {p mb m s s2 : Rat} (hm : 1 ≤ m)
    (hss : s ≤ s2) :
    s - max (min p (s / m)) mb ≤ s2 - max (min p (s2 / m)) mb := by
  have hd : (0 : Rat) ≤ s2 - s := by linarith
  have h1 : s2 / m ≤ s / m + (s2 - s) := by
    have hdiv : (s2 - s) / m ≤ s2 - s := div_le_self hd hm
    have heq : s2 / m - s / m = (s2 - s) / m := by ring
    linarith
  have h2 : min p (s2 / m) ≤ min p (s / m) + (s2 - s) := by
    have ha : min p (s2 / m) ≤ min p (s / m + (s2 - s)) :=
      min_le_min le_rfl h1
    have hb : min p (s / m + (s2 - s))
        ≤ min (p + (s2 - s)) (s / m + (s2 - s)) :=
      min_le_min (by linarith) le_rfl
    have hc : min (p + (s2 - s)) (s / m + (s2 - s))
        = min p (s / m) + (s2 - s) := min_add_add_right p (s / m) (s2 - s)
    linarith
  have h3 : max (min p (s2 / m)) mb ≤ max (min p (s / m)) mb + (s2 - s) := by
    have ha : max (min p (s2 / m)) mb
        ≤ max (min p (s / m) + (s2 - s)) (mb + (s2 - s)) :=
      max_le_max h2 (by linarith)
    have hb : max (min p (s / m) + (s2 - s)) (mb + (s2 - s))
        = max (min p (s / m)) mb + (s2 - s) :=
      max_add_add_right (min p (s / m)) mb (s2 - s)
    linarith
  linarith

/-- Claim C7: for fixed lots with nonnegative quantities and a fixed
`min_margin ≥ 1`, `compute_profit` is non-decreasing in `sell_price` and
non-increasing in `min_buy_price`. -/
theorem compute_profit_monotone (ps : Pairs) (min_margin : Rat)
    (hq : ∀ p ∈ ps, 0 ≤ p.2) (hm : 1 ≤ min_margin) :
    (∀ sell sell2 min_buy, sell ≤ sell2 →
      compute_profit ps sell min_buy min_margin
        ≤ compute_profit ps sell2 min_buy min_margin) ∧
    (∀ sell min_buy min_buy2, min_buy ≤ min_buy2 →
      compute_profit ps sell min_buy2 min_margin
        ≤ compute_profit ps sell min_buy min_margin) := by
  constructor
  · intro sell sell2 min_buy hss
    induction ps with
    | nil => exact le_refl 0
    | cons p rest ih =>
      unfold compute_profit
      have hterm : (sell - max (min p.1 (sell / min_margin)) min_buy) * p.2
          ≤ (sell2 - max (min p.1 (sell2 / min_margin)) min_buy) * p.2 := by
        have := @per_share_profit_mono_sell p.1 min_buy min_margin sell sell2
          hm hss
        have hq0 : (0 : Rat) ≤ (p.2 : Rat) := by
          exact_mod_cast hq p (by simp)
        exact mul_le_mul_of_nonneg_right this hq0
      have hrest := ih (fun x hx => hq x (List.mem_cons_of_mem p hx))
      linarith
  · intro sell min_buy min_buy2 hbb
    induction ps with
    | nil => exact le_refl 0
    | cons p rest ih =>
      unfold compute_profit
      have hterm : (sell - max (min p.1 (sell / min_margin)) min_buy2) * p.2
          ≤ (sell - max (min p.1 (sell / min_margin)) min_buy) * p.2 := by
        have hmax : max (min p.1 (sell / min_margin)) min_buy
            ≤ max (min p.1 (sell / min_margin)) min_buy2 :=
          max_le_max le_rfl hbb
        have hq0 : (0 : Rat) ≤ (p.2 : Rat) := by
          exact_mod_cast hq p (by simp)
        have : sell - max (min p.1 (sell / min_margin)) min_buy2
            ≤ sell - max (min p.1 (sell / min_margin)) min_buy := by
          linarith
        exact mul_le_mul_of_nonneg_right this hq0
      have hrest := ih (fun x hx => hq x (List.mem_cons_of_mem p hx))
      linarith

/-- Witness for claim C7 at a concrete ledger. -/
theorem compute_profit_monotone_witness :
    compute_profit [((2 : Rat), 3), (5, 1)] 10 1 (101/100)
        ≤ compute_profit [((2 : Rat), 3), (5, 1)] 12 1 (101/100) ∧
      compute_profit [((2 : Rat), 3), (5, 1)] 10 4 (101/100)
        ≤ compute_profit [((2 : Rat), 3), (5, 1)] 10 1 (101/100) :=
  ⟨(compute_profit_monotone [((2 : Rat), 3), (5, 1)] (101/100)
      (by with_unfolding_all decide) (by norm_num)).1 10 12 1 (by norm_num),
    (compute_profit_monotone [((2 : Rat), 3), (5, 1)] (101/100)
      (by with_unfolding_all decide) (by norm_num)).2 10 1 4 (by norm_num)⟩

/-! ### Claim C8: `adjust_target_profit` stays in `[min_profit, profit]` -/

/-- `ladder.adjust_target_profit`.  `none` models the `ZeroDivisionError`
raised when `min_margin` is zero or when the hypothetical original per-share
profit is zero. -/
def adjust_target_profit (max_profit min_profit start_price lowest_price
    sell_times min_margin : Rat) : Option Rat :=
  if min_margin = 0 then none
  else
    let original_sell_price := start_price * sell_times
    let buy_price := min start_price (original_sell_price / min_margin)
    let original_per_share_profit := original_sell_price - buy_price
    if original_per_share_profit = 0 then none
    else
      let n_at_start := max_profit / original_per_share_profit
      let lowest_sell_price := lowest_price * sell_times
      let lowest_per_share_profit := lowest_sell_price - buy_price
      let lowest_profit := pennyRound (lowest_per_share_profit * n_at_start)
      some (min (max lowest_profit min_profit) max_profit)

/-- Claim C8: whenever `adjust_target_profit` returns, the adjusted profit
lies in the closed interval `[min_profit, profit]`, for every value of
`lowest_price`. -/
theorem adjust_target_profit_bounds (max_profit min_profit start_price
    lowest_price sell_times min_margin r : Rat)
    (hle : min_profit ≤ max_profit)
    (h : adjust_target_profit max_profit min_profit start_price lowest_price
      sell_times min_margin = some r) :
    min_profit ≤ r ∧ r ≤ max_profit := by
  unfold adjust_target_profit at h
  by_cases hm : min_margin = 0
  · rw [if_pos hm] at h; cases h
  · rw [if_neg hm] at h
    dsimp only at h
    by_cases hz : start_price * sell_times -
        min start_price (start_price * sell_times / min_margin) = 0
    · rw [if_pos hz] at h; cases h
    · rw [if_neg hz] at h
      cases h
      constructor
      · exact le_min (le_max_right _ _) hle
      · exact min_le_right _ _

/-- Witness for claim C8 at concrete rung parameters. -/
theorem adjust_target_profit_bounds_witness :
    ∃ r, adjust_target_profit 50 30 100 60 (102/100) (101/100) = some r ∧
      (30 : Rat) ≤ r ∧ r ≤ 50 := by
  cases hd : adjust_target_profit 50 30 100 60 (102/100) (101/100) with
  | none => exact absurd hd (by with_unfolding_all decide)
  | some r =>
    exact ⟨r, rfl,
      adjust_target_profit_bounds 50 30 100 60 (102/100) (101/100) r
        (by norm_num) hd⟩

/-! ### Claim C9: the searches (off-by-one in `exponential_binary_search`) -/

/-- Evaluation of `exponential_binary_search` at a failing input: the
callback `i ≤ 0` is monotone and eventually false, with highest true index
0, yet the search returns 1 — an index where the callback is false —
because the shortcut `if i == prev_i + 1: return i` returns the probe that
failed instead of `prev_i`.  This contradicts the documented return value
("highest n such that callback returns true"). -/
theorem exponential_binary_search_off_by_one :
    exponential_binary_search (fun i => some (decide (i ≤ 0))) 0 none 10
        = some (some 1) ∧
    (some (decide ((1 : Int) ≤ 0)) = some false) ∧
    (some (decide ((0 : Int) ≤ 0)) = some true) := by
  refine ⟨?_, by decide, by decide⟩
  with_unfolding_all decide

/-! ### Claim C10: safety envelope of `pair_n_needed_for_profit` -/

/-- Claim C10: under the precondition `pair.price < sell_price`,
`profit > 0`, `min_margin ≥ 1`, `min_buy_price < sell_price` (and a
well-formed lot, `quantity ≥ 1`), the per-share profit is strictly positive,
the ceiling division is defined, and the returned count `n` satisfies
`1 ≤ n ≤ pair.quantity` with returned profit `per_share * n`.  Without the
precondition (`min_buy_price ≥ sell_price > pair.price`) the function
divides by zero (`min_buy_price = sell_price`) or returns a negative share
count, as the two concrete evaluations show. -/
theorem pair_n_needed_for_profit_safety :
    (∀ (pair : Pair) (profit sell_price min_buy_price min_margin : Rat),
      pair.1 < sell_price → 0 < profit → 1 ≤ min_margin →
      min_buy_price < sell_price → 1 ≤ pair.2 →
      ∃ n rp, pair_n_needed_for_profit pair profit sell_price min_buy_price
          min_margin = some (n, rp) ∧
        0 < sell_price - max (min pair.1 (sell_price / min_margin))
            min_buy_price ∧
        1 ≤ n ∧ n ≤ pair.2 ∧
        rp = (sell_price - max (min pair.1 (sell_price / min_margin))
            min_buy_price) * n) ∧
    pair_n_needed_for_profit ((0 : Rat), 5) 1 10 10 1 = none ∧
    pair_n_needed_for_profit ((0 : Rat), 5) 35 10 12 1 = some (-17, 34) := by
  refine ⟨?_, by with_unfolding_all decide, by with_unfolding_all decide⟩
  intro pair profit sell_price min_buy_price min_margin hps hp hm hmb hq
  have hm0 : min_margin ≠ 0 := by
    intro hc
    rw [hc] at hm
    norm_num at hm
  have hpps : 0 < sell_price
      - max (min pair.1 (sell_price / min_margin)) min_buy_price := by
    have h1 : min pair.1 (sell_price / min_margin) ≤ pair.1 := min_le_left _ _
    have h2 : max (min pair.1 (sell_price / min_margin)) min_buy_price
        < sell_price := by
      apply max_lt
      · exact lt_of_le_of_lt h1 hps
      · exact hmb
    linarith
  refine ⟨min ⌈profit / (sell_price
      - max (min pair.1 (sell_price / min_margin)) min_buy_price)⌉ pair.2,
    _, ?_, hpps, ?_, min_le_right _ _, rfl⟩
  · unfold pair_n_needed_for_profit
    rw [if_neg (not_le.mpr hps), if_neg hm0]
    dsimp only
    rw [if_neg (ne_of_gt hpps)]
  · refine le_min ?_ hq
    have hdiv : 0 < profit / (sell_price
        - max (min pair.1 (sell_price / min_margin)) min_buy_price) :=
      div_pos hp hpps
    exact Int.ceil_pos.mpr hdiv

/-- Witness for claim C10 at a concrete eligible lot. -/
theorem pair_n_needed_for_profit_safety_witness :
    ∃ n rp, pair_n_needed_for_profit ((5 : Rat), 3) 7 10 2 (101/100)
        = some (n, rp) ∧
      0 < (10 : Rat) - max (min 5 (10 / (101/100))) 2 ∧
      1 ≤ n ∧ n ≤ 3 ∧
      rp = ((10 : Rat) - max (min 5 (10 / (101/100))) 2) * n :=
  pair_n_needed_for_profit_safety.1 ((5 : Rat), 3) 7 10 2 (101/100)
    (by norm_num) (by norm_num) (by norm_num) (by norm_num) (by norm_num)

/-! ### Claim C4: `distribute` never mutates the caller's ledger

Python mutates lists in place, so the non-mutation of the input `Shares` is
a real property of the source, established per operation: `clone` deep-copies
(`deepcopy(self.pairs)`), `__add__`/`__sub__` write only into `result =
self.clone()`, `bottom`/`first_shares` build fresh inner lists, and `__len__`
only reads.  Each operation is modelled in state-passing form, returning the
caller-visible state of `self.pairs` after the call, and `distribute` is
re-expressed by threading that state through every operation it performs on
the caller's ledger. -/

/-- `Shares.clone` reads `self.pairs` and deep-copies it; `self` unchanged. -/
def cloneSt (self : Pairs) : Pairs × Pairs := (clone_pairs self, self)

/-- `Shares.__add__` clones `self` and mutates only the clone
(`merge_pairs(result.pairs, ...)`); `self` unchanged. -/
def addSt (self : Pairs) (other : Pairs) : Pairs × Pairs :=
  (addPairs (clone_pairs self) other, self)

/-- `Shares.bottom` builds detached pairs via `first_shares` (fresh inner
lists) and a new `Shares`; `self` unchanged. -/
def bottomSt (self : Pairs) (n : Int) : Option Pairs × Pairs :=
  (bottomPairs self n, self)

/-- `Shares.__len__` only reads; `self` unchanged. -/
def lenSt (self : Pairs) : Int × Pairs := (totalQty self, self)

/-- `distribute_pass` touches the caller's ledger only through
`shares.clone()`; the pass body then works on the clone. -/
def distribute_pass_st (fuel : Nat) (st : Pairs) (targets : List Target)
    (current_price min_margin : Rat) : Option DistributionReport × Pairs :=
  let (cl, st1) := cloneSt st
  (passGo fuel current_price min_margin (stableSort targetLe targets) cl []
    true true, st1)

/-- The buy-search callback, threading the caller's ledger: it evaluates
`shares + [current_price, n]` (via `addSt`) and runs the pass on that
temporary ledger. -/
def buyCallbackSt (fuel : Nat) (targets : List Target)
    (current_price min_margin : Rat) (n : Int) (st : Pairs) :
    Option Bool × Pairs :=
  let (try_shares, st1) := addSt st (convertSingle current_price n)
  ((distribute_pass fuel try_shares targets current_price min_margin).map
    (fun r => !r.buyables_satisfied), st1)

/-- The sell-search callback, threading the caller's ledger through
`shares.bottom(n)` and `shares - bottom`. -/
def sellCallbackSt (fuel : Nat) (targets : List Target)
    (current_price min_margin : Rat) (n : Int) (st : Pairs) :
    Option Bool × Pairs :=
  let (bot, st1) := bottomSt st n
  match bot with
  | none => (none, st1)
  | some b =>
    let (res, st2) := subSt st1 b
    match res with
    | .error _ => (none, st2)
    | .ok try_shares =>
      ((distribute_pass fuel try_shares targets current_price min_margin).map
        (fun r => r.all_satisfied), st2)

/-- `binary_search`'s loop with a state-threading callback. -/
def binarySearchGoSt (cb : Int → Pairs → Option Bool × Pairs) :
    Nat → Int → Int → Option Int → Pairs → Option (Option Int) × Pairs
  | 0, _, _, _, st => (none, st)
  | fuel + 1, a, b, lastGood, st =>
    let middle := (a + b) / 2
    let (r, st1) := cb middle st
    match r with
    | none => (none, st1)
    | some true =>
      let lastGood2 : Option Int := some middle
      let a2 := middle + 1
      if lastGood2 = some b ∨ a2 > b then (some lastGood2, st1)
      else binarySearchGoSt cb fuel a2 b lastGood2 st1
    | some false =>
      let b2 := middle - 1
      if lastGood = some b2 ∨ a > b2 then (some lastGood, st1)
      else binarySearchGoSt cb fuel a b2 lastGood st1

/-- `binary_search` with a state-threading callback. -/
def binary_searchSt (cb : Int → Pairs → Option Bool × Pairs)
    (min_n max_n : Int) (st : Pairs) : Option (Option Int) × Pairs :=
  if min_n > max_n then (none, st)
  else binarySearchGoSt cb ((max_n - min_n).toNat + 1) min_n max_n none st

/-- The doubling loop of `exponential_binary_search`, state-threading. -/
def ebsLoopSt (cb : Int → Pairs → Option Bool × Pairs) (second_guess : Int) :
    Nat → Option Int → Int → Pairs → Option (Option Int × Int) × Pairs
  | 0, _, _, st => (none, st)
  | fuel + 1, prev_i, i, st =>
    let (r, st1) := cb i st
    match r with
    | none => (none, st1)
    | some true =>
      ebsLoopSt cb second_guess fuel (some i) (max (i * 2) second_guess) st1
    | some false => (some (prev_i, i), st1)

/-- `exponential_binary_search` after validation, state-threading. -/
def ebsAfterSt (cb : Int → Pairs → Option Bool × Pairs)
    (min_n second_guess : Int) (fuel : Nat) (st : Pairs) :
    Option (Option Int) × Pairs :=
  match ebsLoopSt cb second_guess fuel none min_n st with
  | (none, st1) => (none, st1)
  | (some (prev_i, i), st1) =>
    if i = min_n then (some none, st1)
    else
      match prev_i with
      | none => (none, st1)
      | some p =>
        if i = p + 1 then (some (some i), st1)
        else
          match binary_searchSt cb (p + 1) (i - 1) st1 with
          | (none, st2) => (none, st2)
          | (some none, st2) => (some (some p), st2)
          | (some (some r), st2) => (some (some r), st2)

/-- `exponential_binary_search`, state-threading. -/
def exponential_binary_searchSt (cb : Int → Pairs → Option Bool × Pairs)
    (min_n : Int) (second_guess : Option Int) (fuel : Nat) (st : Pairs) :
    Option (Option Int) × Pairs :=
  if min_n < 0 then (none, st)
  else
    match second_guess with
    | some sg =>
      if sg ≤ min_n then (none, st) else ebsAfterSt cb min_n sg fuel st
    | none => ebsAfterSt cb min_n (min_n + 1) fuel st

/-- `distribute`, threading the caller's ledger through every operation that
touches it (the first pass's clone, the search callbacks, `len(shares)`,
`shares.bottom(n_sell)` and `shares - held_out_shares`). -/
def distributeSt (fuel : Nat) (shares : Pairs) (targets : List Target)
    (current_price min_margin : Rat) : Option DistributionReport × Pairs :=
  match distribute_pass_st fuel shares targets current_price min_margin with
  | (none, st1) => (none, st1)
  | (some first_report, st1) =>
    if !first_report.buyables_satisfied then
      match exponential_binary_searchSt
          (buyCallbackSt fuel targets current_price min_margin)
          0 (some 32) fuel st1 with
      | (some (some n), st2) =>
        (some { first_report with buys_needed := some (n + 1) }, st2)
      | (_, st2) => (none, st2)
    else if first_report.all_satisfied &&
        decide (0 < totalQty first_report.unbound_shares) then
      let (len, st2) := lenSt st1
      match binary_searchSt
          (sellCallbackSt fuel targets current_price min_margin) 0 len st2 with
      | (some (some n_sell), st3) =>
        if n_sell = 0 then (some first_report, st3)
        else
          let (bot, st4) := bottomSt st3 n_sell
          match bot with
          | none => (none, st4)
          | some held_out_shares =>
            let (res, st5) := subSt st4 held_out_shares
            match res with
            | .error _ => (none, st5)
            | .ok retained_shares =>
              match distribute_pass fuel retained_shares targets current_price
                  min_margin with
              | none => (none, st5)
              | some report =>
                (some { report with
                  unbound_shares :=
                    addPairs report.unbound_shares held_out_shares }, st5)
      | (_, st3) => (none, st3)
    else (some first_report, st1)

theorem buyCallbackSt_frame (fuel : Nat) (targets : List Target)
    (cp m : Rat) (n : Int) (st : Pairs) :
    (buyCallbackSt fuel targets cp m n st).2 = st := rfl

theorem sellCallbackSt_frame (fuel : Nat) (targets : List Target)
    (cp m : Rat) (n : Int) (st : Pairs) :
    (sellCallbackSt fuel targets cp m n st).2 = st := by
  unfold sellCallbackSt
  rw [show bottomSt st n = (bottomPairs st n, st) from rfl]
  cases hbot : bottomPairs st n with
  | none => rfl
  | some b =>
    dsimp only
    rw [show subSt st b = (subPairs (clone_pairs st) b, st) from rfl]
    cases hsub : subPairs (clone_pairs st) b with
    | error e => rfl
    | ok try_shares => rfl

theorem binarySearchGoSt_frame (cb : Int → Pairs → Option Bool × Pairs)
    (hcb : ∀ n st, (cb n st).2 = st) :
    ∀ (fuel : Nat) (a b : Int) (lastGood : Option Int) (st : Pairs),
      (binarySearchGoSt cb fuel a b lastGood st).2 = st := by
  intro fuel
  induction fuel with
  | zero => intro a b lastGood st; rfl
  | succ fuel ih =>
    intro a b lastGood st
    unfold binarySearchGoSt
    dsimp only
    have hst := hcb ((a + b) / 2) st
    cases hr : cb ((a + b) / 2) st with
    | mk r st1 =>
      rw [hr] at hst
      dsimp only at hst
      subst hst
      cases r with
      | none => rfl
      | some v =>
        cases v with
        | true =>
          dsimp only
          by_cases hexit : (some ((a + b) / 2) : Option Int) = some b ∨
              (a + b) / 2 + 1 > b
          · rw [if_pos hexit]
          · rw [if_neg hexit]
            exact ih _ _ _ _
        | false =>
          dsimp only
          by_cases hexit : lastGood = some ((a + b) / 2 - 1) ∨
              a > (a + b) / 2 - 1
          · rw [if_pos hexit]
          · rw [if_neg hexit]
            exact ih _ _ _ _

theorem binary_searchSt_frame (cb : Int → Pairs → Option Bool × Pairs)
    (hcb : ∀ n st, (cb n st).2 = st) (min_n max_n : Int) (st : Pairs) :
    (binary_searchSt cb min_n max_n st).2 = st := by
  unfold binary_searchSt
  by_cases h : min_n > max_n
  · rw [if_pos h]
  · rw [if_neg h]
    exact binarySearchGoSt_frame cb hcb _ _ _ _ _

theorem ebsLoopSt_frame (cb : Int → Pairs → Option Bool × Pairs)
    (hcb : ∀ n st, (cb n st).2 = st) (sg : Int) :
    ∀ (fuel : Nat) (prev : Option Int) (i : Int) (st : Pairs),
      (ebsLoopSt cb sg fuel prev i st).2 = st := by
  intro fuel
  induction fuel with
  | zero => intro prev i st; rfl
  | succ fuel ih =>
    intro prev i st
    unfold ebsLoopSt
    have hst := hcb i st
    cases hr : cb i st with
    | mk r st1 =>
      rw [hr] at hst
      dsimp only at hst
      subst hst
      cases r with
      | none => rfl
      | some v =>
        cases v with
        | true => exact ih _ _ _
        | false => rfl

theorem ebsAfterSt_frame (cb : Int → Pairs → Option Bool × Pairs)
    (hcb : ∀ n st, (cb n st).2 = st) (min_n sg : Int) (fuel : Nat)
    (st : Pairs) : (ebsAfterSt cb min_n sg fuel st).2 = st := by
  unfold ebsAfterSt
  have hloop := ebsLoopSt_frame cb hcb sg fuel none min_n st
  cases hl : ebsLoopSt cb sg fuel none min_n st with
  | mk res st1 =>
    rw [hl] at hloop
    dsimp only at hloop
    subst hloop
    cases res with
    | none => rfl
    | some pi =>
      rcases pi with ⟨prev, i⟩
      dsimp only
      by_cases hi : i = min_n
      · rw [if_pos hi]
      · rw [if_neg hi]
        cases prev with
        | none => rfl
        | some p =>
          dsimp only
          by_cases hs : i = p + 1
          · rw [if_pos hs]
          · rw [if_neg hs]
            have hbs := binary_searchSt_frame cb hcb (p + 1) (i - 1) st1
            cases hb : binary_searchSt cb (p + 1) (i - 1) st1 with
            | mk r2 st2 =>
              rw [hb] at hbs
              dsimp only at hbs
              subst hbs
              cases r2 with
              | none => rfl
              | some inner =>
                cases inner with
                | none => rfl
                | some r3 => rfl

theorem exponential_binary_searchSt_frame
    (cb : Int → Pairs → Option Bool × Pairs)
    (hcb : ∀ n st, (cb n st).2 = st) (min_n : Int) (sg : Option Int)
    (fuel : Nat) (st : Pairs) :
    (exponential_binary_searchSt cb min_n sg fuel st).2 = st := by
  unfold exponential_binary_searchSt
  by_cases h : min_n < 0
  · rw [if_pos h]
  · rw [if_neg h]
    cases sg with
    | none => exact ebsAfterSt_frame cb hcb _ _ _ _
    | some s =>
      dsimp only
      by_cases h2 : s ≤ min_n
      · rw [if_pos h2]
      · rw [if_neg h2]
        exact ebsAfterSt_frame cb hcb _ _ _ _

/-- Claim C4: `distribute` leaves the caller's ledger unchanged — the
state-threaded `distribute` returns the input `shares` as the final state of
the caller's `Shares` instance, in every branch (first pass, buy search,
sell search, unchanged). -/
theorem distribute_frame (fuel : Nat) (shares : Pairs)
    (targets : List Target) (current_price min_margin : Rat) :
    (distributeSt fuel shares targets current_price min_margin).2 = shares := by
  unfold distributeSt distribute_pass_st cloneSt
  dsimp only
  cases hfirst : passGo fuel current_price min_margin
      (stableSort targetLe targets) (clone_pairs shares) [] true true with
  | none => rfl
  | some first_report =>
    dsimp only
    by_cases hb : !first_report.buyables_satisfied
    · rw [if_pos hb]
      have hebs := exponential_binary_searchSt_frame
        (buyCallbackSt fuel targets current_price min_margin)
        (fun n st => buyCallbackSt_frame fuel targets current_price min_margin
          n st) 0 (some 32) fuel shares
      cases he : exponential_binary_searchSt
          (buyCallbackSt fuel targets current_price min_margin)
          0 (some 32) fuel shares with
      | mk res st2 =>
        rw [he] at hebs
        dsimp only at hebs
        subst hebs
        cases res with
        | none => rfl
        | some inner =>
          cases inner with
          | none => rfl
          | some n => rfl
    · rw [if_neg hb]
      by_cases hs : (first_report.all_satisfied &&
          decide (0 < totalQty first_report.unbound_shares)) = true
      · rw [if_pos hs]
        dsimp only [lenSt]
        have hbs := binary_searchSt_frame
          (sellCallbackSt fuel targets current_price min_margin)
          (fun n st => sellCallbackSt_frame fuel targets current_price
            min_margin n st) 0 (totalQty shares) shares
        cases hb2 : binary_searchSt
            (sellCallbackSt fuel targets current_price min_margin)
            0 (totalQty shares) shares with
        | mk res st3 =>
          rw [hb2] at hbs
          dsimp only at hbs
          subst hbs
          cases res with
          | none => rfl
          | some inner =>
            cases inner with
            | none => rfl
            | some n_sell =>
              dsimp only
              by_cases hz : n_sell = 0
              · rw [if_pos hz]
              · rw [if_neg hz]
                dsimp only [bottomSt]
                cases hbot : bottomPairs st3 n_sell with
                | none => rfl
                | some held_out =>
                  dsimp only [subSt]
                  cases hsub : subPairs (clone_pairs st3) held_out with
                  | error e => rfl
                  | ok retained =>
                    dsimp only
                    cases hpass : distribute_pass fuel retained targets
                        current_price min_margin with
                    | none => rfl
                    | some report => rfl
      · rw [if_neg hs]

/-- Consistency of the state-threaded `distribute` with the plain one: the
threading changes no computed result. -/
theorem distributeSt_fst (fuel : Nat) (shares : Pairs)
    (targets : List Target) (current_price min_margin : Rat) :
    (distributeSt fuel shares targets current_price min_margin).1 =
      distribute fuel shares targets current_price min_margin := by
  have hgo : ∀ (cbSt : Int → Pairs → Option Bool × Pairs)
      (cb : Int → Option Bool) (S0 : Pairs),
      (∀ n, cbSt n S0 = (cb n, S0)) →
      ∀ (fuel2 : Nat) (a b : Int) (lastGood : Option Int),
        binarySearchGoSt cbSt fuel2 a b lastGood S0
          = (binarySearchGo cb fuel2 a b lastGood, S0) := by
    intro cbSt cb S0 hcb fuel2
    induction fuel2 with
    | zero => intro a b lastGood; rfl
    | succ f ih =>
      intro a b lastGood
      unfold binarySearchGoSt binarySearchGo
      dsimp only
      rw [hcb ((a + b) / 2)]
      dsimp only
      cases cb ((a + b) / 2) with
      | none => rfl
      | some v =>
        cases v with
        | true =>
          dsimp only
          by_cases hexit : (some ((a + b) / 2) : Option Int) = some b ∨
              (a + b) / 2 + 1 > b
          · rw [if_pos hexit, if_pos hexit]
          · rw [if_neg hexit, if_neg hexit]
            exact ih _ _ _
        | false =>
          dsimp only
          by_cases hexit : lastGood = some ((a + b) / 2 - 1) ∨
              a > (a + b) / 2 - 1
          · rw [if_pos hexit, if_pos hexit]
          · rw [if_neg hexit, if_neg hexit]
            exact ih _ _ _
  have hbsearch : ∀ (cbSt : Int → Pairs → Option Bool × Pairs)
      (cb : Int → Option Bool) (S0 : Pairs),
      (∀ n, cbSt n S0 = (cb n, S0)) →
      ∀ (mn mx : Int),
        binary_searchSt cbSt mn mx S0 = (binary_search cb mn mx, S0) := by
    intro cbSt cb S0 hcb mn mx
    unfold binary_searchSt binary_search
    by_cases h : mn > mx
    · rw [if_pos h, if_pos h]
    · rw [if_neg h, if_neg h]
      exact hgo cbSt cb S0 hcb _ _ _ _
  have hebsloop : ∀ (cbSt : Int → Pairs → Option Bool × Pairs)
      (cb : Int → Option Bool) (S0 : Pairs),
      (∀ n, cbSt n S0 = (cb n, S0)) →
      ∀ (sg : Int) (fuel2 : Nat) (prev : Option Int) (i : Int),
        ebsLoopSt cbSt sg fuel2 prev i S0 = (ebsLoop cb sg fuel2 prev i, S0) := by
    intro cbSt cb S0 hcb sg fuel2
    induction fuel2 with
    | zero => intro prev i; rfl
    | succ f ih =>
      intro prev i
      unfold ebsLoopSt ebsLoop
      rw [hcb i]
      dsimp only
      cases cb i with
      | none => rfl
      | some v =>
        cases v with
        | true => exact ih _ _
        | false => rfl
  have hebsafter : ∀ (cbSt : Int → Pairs → Option Bool × Pairs)
      (cb : Int → Option Bool) (S0 : Pairs),
      (∀ n, cbSt n S0 = (cb n, S0)) →
      ∀ (mn sg : Int) (fuel2 : Nat),
        ebsAfterSt cbSt mn sg fuel2 S0 = (ebsAfter cb mn sg fuel2, S0) := by
    intro cbSt cb S0 hcb mn sg fuel2
    unfold ebsAfterSt ebsAfter
    rw [hebsloop cbSt cb S0 hcb sg fuel2 none mn]
    cases ebsLoop cb sg fuel2 none mn with
    | none => rfl
    | some pi =>
      rcases pi with ⟨prev, i⟩
      dsimp only
      by_cases hi : i = mn
      · rw [if_pos hi, if_pos hi]
      · rw [if_neg hi, if_neg hi]
        cases prev with
        | none => rfl
        | some p =>
          dsimp only
          by_cases hs : i = p + 1
          · rw [if_pos hs, if_pos hs]
          · rw [if_neg hs, if_neg hs]
            rw [hbsearch cbSt cb S0 hcb (p + 1) (i - 1)]
            cases binary_search cb (p + 1) (i - 1) with
            | none => rfl
            | some inner =>
              cases inner with
              | none => rfl
              | some r => rfl
  have hebs : ∀ (cbSt : Int → Pairs → Option Bool × Pairs)
      (cb : Int → Option Bool) (S0 : Pairs),
      (∀ n, cbSt n S0 = (cb n, S0)) →
      ∀ (mn : Int) (sg : Option Int) (fuel2 : Nat),
        exponential_binary_searchSt cbSt mn sg fuel2 S0
          = (exponential_binary_search cb mn sg fuel2, S0) := by
    intro cbSt cb S0 hcb mn sg fuel2
    unfold exponential_binary_searchSt exponential_binary_search
    by_cases h : mn < 0
    · rw [if_pos h, if_pos h]
    · rw [if_neg h, if_neg h]
      cases sg with
      | none => exact hebsafter cbSt cb S0 hcb _ _ _
      | some s =>
        dsimp only
        by_cases h2 : s ≤ mn
        · rw [if_pos h2, if_pos h2]
        · rw [if_neg h2, if_neg h2]
          exact hebsafter cbSt cb S0 hcb _ _ _
  have hcbb : ∀ n, buyCallbackSt fuel targets current_price min_margin n shares
      = (buyCallback fuel shares targets current_price min_margin n, shares) :=
    fun n => rfl
  have hcbs : ∀ n, sellCallbackSt fuel targets current_price min_margin n shares
      = (sellCallback fuel shares targets current_price min_margin n, shares) := by
    intro n
    unfold sellCallbackSt sellCallback bottomSt subSt clone_pairs
    cases hbot : bottomPairs shares n with
    | none => rfl
    | some b =>
      dsimp only
      cases hsub : subPairs shares b with
      | error e => rfl
      | ok try_shares => rfl
  unfold distributeSt distribute distribute_pass_st cloneSt distribute_pass
  dsimp only
  cases hfirst : passGo fuel current_price min_margin
      (stableSort targetLe targets) (clone_pairs shares) [] true true with
  | none => rfl
  | some first_report =>
    dsimp only
    by_cases hb : !first_report.buyables_satisfied
    · rw [if_pos hb, if_pos hb]
      rw [hebs (buyCallbackSt fuel targets current_price min_margin)
        (buyCallback fuel shares targets current_price min_margin)
        shares hcbb 0 (some 32) fuel]
      cases exponential_binary_search
          (buyCallback fuel shares targets current_price min_margin)
          0 (some 32) fuel with
      | none => rfl
      | some inner =>
        cases inner with
        | none => rfl
        | some n => rfl
    · rw [if_neg hb, if_neg hb]
      by_cases hs : (first_report.all_satisfied &&
          decide (0 < totalQty first_report.unbound_shares)) = true
      · rw [if_pos hs, if_pos hs]
        dsimp only [lenSt]
        rw [hbsearch (sellCallbackSt fuel targets current_price min_margin)
          (sellCallback fuel shares targets current_price min_margin)
          shares hcbs 0 (totalQty shares)]
        cases binary_search
            (sellCallback fuel shares targets current_price min_margin)
            0 (totalQty shares) with
        | none => rfl
        | some inner =>
          cases inner with
          | none => rfl
          | some n_sell =>
            dsimp only
            by_cases hz : n_sell = 0
            · rw [if_pos hz, if_pos hz]
            · rw [if_neg hz, if_neg hz]
              dsimp only [bottomSt, subSt, clone_pairs]
              cases hbot : bottomPairs shares n_sell with
              | none => rfl
              | some held_out =>
                dsimp only
                cases hsub : subPairs shares held_out with
                | error e => rfl
                | ok retained =>
                  dsimp only
                  cases passGo fuel current_price min_margin
                      (stableSort targetLe targets) retained [] true true with
                  | none => rfl
                  | some report => rfl
      · rw [if_neg hs, if_neg hs]

end Stocks
